import Mathlib

/-!
A shallow embedding of the Robin-Hood hash table in `src/table.c` (repository
`badembed/rh_hash`), together with theorems settling the frozen claims about it.

Modelling conventions:
* C machine integers are modelled as `Nat`.  The 64-bit wraparound of the
  default djb2 hash is kept explicitly (`% 2 ^ 64`); the other counters
  (`totalweight`, `elements`, `probepos`, sizes) stay far below `2 ^ 32` in
  every state considered here, so plain `Nat` arithmetic coincides with the
  C unsigned arithmetic on them (unsigned subtractions in the source only
  happen when the subtrahend is no larger than the minuend, which the weight
  invariant below makes precise).
* The float comparison `(float)elements/(float)size > 0.95` is modelled as the
  exact rational comparison `19 * size < 20 * elements`; for table sizes below
  a million (the default size is 547 and growth multiplies by 2.5) the two
  agree, since no fraction `elements/size` with such a denominator falls
  inside the rounding window of `0.95f`.
* `float scalar = 2.5` in `grow_table`/`next_prime_size` is exact in binary
  floating point, and `(size_t)(cur_size * 2.5f)` equals `cur_size * 5 / 2`
  (truncating division) for `cur_size < 2 ^ 23`.
* Key and data pointers are opaque references: a key is its byte sequence
  (`List Nat`), a data pointer is a `Nat` identifier.  A `NULL` key pointer is
  `none`, so a slot's key has type `Option (List Nat)`.
* The unbounded C loops (`table_insert`'s probe loop, `internal_search`'s
  bidirectional walk, the prime walks) are modelled with explicit fuel; a
  `none` result of `insert_loop` corresponds to the C loop not having
  terminated within the given number of iterations.  The fuel passed by
  `table_insert` and `internal_search` is proved sufficient where needed.
* Allocation is environmental: `grow_table` and `table_insert` take an
  `allocOk : Bool` telling whether `calloc` succeeds.
-/

/-- One slot of the table, mirroring `struct entry` in `src/table.c`.
`key = none` models a `NULL` key pointer (a pristine, never-written slot);
`alive = false` with `key ≠ none` is a tombstone. -/
structure Entry where
  hash : Nat
  key : Option (List Nat)
  data : Nat
  keylen : Nat
  probepos : Nat
  alive : Bool
deriving Repr, DecidableEq

/-- A `calloc`-zeroed slot. -/
def emptyEntry : Entry :=
  { hash := 0, key := none, data := 0, keylen := 0, probepos := 0, alive := false }

/-- The table, mirroring `struct table` in `src/table.c`.  The slot array is a
list whose length is `size` in every well-formed state; `hash` and `cmp` are
the pluggable strategy functions stored in the handle. -/
structure Table where
  slots : List Entry
  size : Nat
  step_prime : Nat
  totalweight : Nat
  maxprobe : Nat
  elements : Nat
  hash : List Nat → Nat → Nat
  cmp : List Nat → List Nat → Nat → Int

/-- `strncmp` over byte lists: compares up to `n` bytes, stopping at the first
difference or at a 0 byte; bytes past the end of a list are read as 0. -/
def strncmp : List Nat → List Nat → Nat → Int
  | _, _, 0 => 0
  | [], [], _ + 1 => 0
  | [], y :: _, _ + 1 => if y = 0 then 0 else -(y : Int)
  | x :: _, [], _ + 1 => if x = 0 then 0 else (x : Int)
  | x :: xs, y :: ys, n + 1 =>
    if x = y then (if x = 0 then 0 else strncmp xs ys n)
    else (x : Int) - (y : Int)

/-- Default key comparison (`table_cmp` wraps `strncmp`). -/
def table_cmp (k1 k2 : List Nat) (len : Nat) : Int :=
  strncmp k1 k2 len

/-- Default djb2 hash (`table_hash`), with the `unsigned long` wraparound made
explicit.  The C loop reads exactly `len` bytes of the key. -/
def table_hash (k : List Nat) (len : Nat) : Nat :=
  (k.take len).foldl (fun h c => (h * 33 + c) % 2 ^ 64) 5381

/-- The trial-division loop of `is_prime`: `while (i*i < n) { if (n % i == 0
|| n % (i+2) == 0) return 0; i += 6; }`.  `fuel` bounds the number of
iterations; `fuel = n` is always sufficient (the loop runs while `i * i < n`
and `i` grows by 6 each time). -/
def is_prime_loop (n : Nat) : Nat → Nat → Bool
  | _, 0 => true
  | i, fuel + 1 =>
    if i * i < n then
      if n % i = 0 || n % (i + 2) = 0 then false
      else is_prime_loop n (i + 6) fuel
    else true

/-- `is_prime` from `src/table.c`.  Note the loop guard is `i * i < n`
(strict), faithfully reproduced. -/
def is_prime (n : Nat) : Bool :=
  if n ≤ 1 then false
  else if n ≤ 3 then true
  else if n % 2 = 0 || n % 3 = 0 then false
  else is_prime_loop n 5 n

/-- Upward walk of `next_prime_size`: `while (!is_prime(new_size)) new_size++`.
Fuel-bounded; the fuel chosen below always suffices by Bertrand's postulate. -/
def find_prime_above : Nat → Nat → Nat
  | n, 0 => n
  | n, fuel + 1 => if is_prime n then n else find_prime_above (n + 1) fuel

/-- `next_prime_size(cur_size, 2.5)` from `src/table.c`:
`new_size = cur_size * 2.5` (float, truncated — `cur_size * 5 / 2` exactly,
see the header comment), then walk up to the first `is_prime`-accepted
number. -/
def next_prime_size (cur_size : Nat) : Nat :=
  find_prime_above (cur_size * 5 / 2) (cur_size * 5 / 2 + 2)

/-- Downward walk of `next_prime_step`: `new_step = cur_size - 1;
while (!is_prime(new_step)) new_step--`.  For `cur_size ≤ 2` the C loop
underflows `size_t`; the model returns 0 there (such sizes never occur). -/
def find_prime_below : Nat → Nat
  | 0 => 0
  | n + 1 => if is_prime (n + 1) then n + 1 else find_prime_below n

/-- `next_prime_step` from `src/table.c`. -/
def next_prime_step (cur_size : Nat) : Nat :=
  find_prime_below (cur_size - 1)

/-- Outcome of probing one slot in one direction of `internal_search`:
a hit (`found pos`), a signal that this direction is finished (`halt`,
setting `topdone`/`botdone`), or nothing (`miss`). -/
inductive Probe where
  | found : Nat → Probe
  | halt : Probe
  | miss : Probe
deriving Repr, DecidableEq

/-- The upward probe of one `internal_search` iteration (the
`!topdone && (start + walk) <= ta->maxprobe` branch). -/
def probe_top (t : Table) (key : List Nat) (keylen hash step start walk : Nat) : Probe :=
  if start + walk ≤ t.maxprobe then
    let pos := (hash + (start + walk) * step) % t.size
    let e := t.slots.getD pos emptyEntry
    if e.key = none then Probe.halt
    else if e.alive ∧ t.cmp key (e.key.getD []) keylen = 0 then Probe.found pos
    else Probe.miss
  else Probe.halt

/-- The downward probe of one `internal_search` iteration (the
`!botdone && (start - walk) >= 1` branch; the guard `walk + 1 ≤ start` is the
`int` comparison `start - walk >= 1` for the nonnegative values occurring
here). -/
def probe_bot (t : Table) (key : List Nat) (keylen hash step start walk : Nat) : Probe :=
  if walk + 1 ≤ start then
    let pos := (hash + (start - walk) * step) % t.size
    let e := t.slots.getD pos emptyEntry
    if e.alive ∧ t.cmp key (e.key.getD []) keylen = 0 then Probe.found pos
    else Probe.miss
  else Probe.halt

/-- The bidirectional walk of `internal_search`.  Each iteration probes
upward (unless `topdone`), then downward (unless `botdone`), updates the two
flags, exits with `none` when both directions are exhausted, and otherwise
increments `walk`.  The fuel passed by `internal_search` is always
sufficient, since `walk` eventually exceeds both `maxprobe - start` and
`start`. -/
def search_loop (t : Table) (key : List Nat) (keylen hash step start : Nat) :
    Nat → Nat → Bool → Bool → Option Nat
  | 0, _, _, _ => none
  | fuel + 1, walk, topdone, botdone =>
    let pt := if topdone then Probe.halt else probe_top t key keylen hash step start walk
    match pt with
    | Probe.found pos => some pos
    | pt =>
      let topdone2 := topdone || pt == Probe.halt
      let pb := if botdone then Probe.halt else probe_bot t key keylen hash step start walk
      match pb with
      | Probe.found pos => some pos
      | pb =>
        let botdone2 := botdone || pb == Probe.halt
        if topdone2 && botdone2 then none
        else search_loop t key keylen hash step start fuel (walk + 1) topdone2 botdone2

/-- `internal_search` from `src/table.c`: `none` models the C return value
`-1`; `some pos` a slot index.  `start` is the historical average probe
length `totalweight / elements`. -/
def internal_search (t : Table) (key : List Nat) (keylen : Nat) : Option Nat :=
  if t.elements = 0 then none
  else
    let hash := t.hash key keylen
    let step := t.step_prime - hash % t.step_prime
    let start := t.totalweight / t.elements
    search_loop t key keylen hash step start (start + t.maxprobe + 2) 0 false false

/-- The probe/displacement loop of `table_insert` (the `for (;;)` starting at
`src/table.c:211`).  Each iteration increments the candidate's `probepos` and
`totalweight`, then inspects the slot `(hash + probepos * step) % size`:
* dead slot with non-`NULL` key (tombstone): run `internal_search`; on a hit
  overwrite the tombstone with the candidate, clear the found slot's alive
  flag, subtract its `probepos` from `totalweight`, return success without
  touching `elements`/`maxprobe`;
* dead slot otherwise: place the candidate, then (the code after the loop)
  increment `elements` and update `maxprobe`;
* live slot, Robin-Hood condition: update `maxprobe`, swap the candidate with
  the occupant, recompute `step` for the displaced record, continue;
* live slot, identical key: overwrite `data`, subtract the candidate's
  `probepos` from `totalweight`, return success;
* otherwise continue.
A `none` result means the fuel was exhausted (the C loop did not terminate
within `fuel` iterations). -/
def insert_loop (t : Table) (r : Entry) (step : Nat) : Nat → Option (Table × Int)
  | 0 => none
  | fuel + 1 =>
    let pp := r.probepos + 1
    let r1 : Entry := { r with probepos := pp }
    let t1 : Table := { t with totalweight := t.totalweight + 1 }
    let idx := (r1.hash + pp * step) % t1.size
    let e := t1.slots.getD idx emptyEntry
    if e.alive = false then
      if e.key ≠ none then
        match internal_search t1 (r1.key.getD []) r1.keylen with
        | some pos =>
          let slots1 := t1.slots.set idx r1
          let epos := slots1.getD pos emptyEntry
          let slots2 := slots1.set pos { epos with alive := false }
          some ({ t1 with slots := slots2, totalweight := t1.totalweight - epos.probepos }, 0)
        | none =>
          some ({ t1 with slots := t1.slots.set idx r1, elements := t1.elements + 1,
                          maxprobe := max pp t1.maxprobe }, 0)
      else
        some ({ t1 with slots := t1.slots.set idx r1, elements := t1.elements + 1,
                        maxprobe := max pp t1.maxprobe }, 0)
    else
      if e.probepos < pp ∨ (e.probepos = pp ∧ r1.hash < e.hash) then
        let t2 : Table := { t1 with maxprobe := max pp t1.maxprobe, slots := t1.slots.set idx r1 }
        insert_loop t2 e (t2.step_prime - e.hash % t2.step_prime) fuel
      else if e.probepos = pp ∧ r1.hash = e.hash ∧
          strncmp (r1.key.getD []) (e.key.getD []) r1.keylen = 0 then
        some ({ t1 with slots := t1.slots.set idx { e with data := r1.data },
                        totalweight := t1.totalweight - pp }, 0)
      else
        insert_loop t1 r1 step fuel

/-- The fuel `table_insert` hands to `insert_loop`; proved sufficient for
well-formed states in the termination development below. -/
def insertFuel (t : Table) : Nat :=
  t.size * t.size + 2 * t.size + 2

/-- `table_insert` without the growth check.  `grow_table`'s replay calls the
full `table_insert`, but during a replay the load factor never exceeds
`oldSize / newSize ≤ 0.4 < 0.95` (growth multiplies the capacity by at least
2.47), so the growth branch is never taken there and the replay is faithfully
modelled by this growthless variant, breaking the mutual recursion. -/
def insert_basic (t : Table) (key : List Nat) (keylen : Nat) (data : Nat) :
    Option (Table × Int) :=
  let h := t.hash key keylen
  let r : Entry := { hash := h, key := some key, data := data, keylen := keylen,
                     probepos := 0, alive := true }
  let step := t.step_prime - h % t.step_prime
  if t.elements = t.size then some (t, -1)
  else insert_loop t r step (insertFuel t)

/-- `grow_table` from `src/table.c`: on allocation failure (`allocOk =
false`) the table is left untouched and `-1` is signalled (`none`); otherwise
a fresh zeroed array of the next accepted size is installed, `step_prime`
and the counters are reset, and every live entry of the old array is replayed
through the insertion protocol. -/
def grow_table (allocOk : Bool) (t : Table) : Option Table :=
  if allocOk = false then none
  else
    let newSize := next_prime_size t.size
    let base : Table :=
      { t with slots := List.replicate newSize emptyEntry, size := newSize,
               step_prime := next_prime_step newSize,
               elements := 0, maxprobe := 0, totalweight := 0 }
    some (t.slots.foldl (fun acc e =>
      if e.alive then
        match insert_basic acc (e.key.getD []) e.keylen e.data with
        | some (t2, _) => t2
        | none => acc
      else acc) base)

/-- `table_insert` from `src/table.c`.  Faithfully reproduced details:
* `step` is computed from `step_prime` before the growth check, so after a
  mid-call growth the loop runs with the stale step;
* the return value of `grow_table` is discarded (`.getD t`): on allocation
  failure the insert proceeds in the unexpanded table;
* the growth condition compares the load factor before the insert
  (`elements / size > 0.95`, i.e. `19 * size < 20 * elements`). -/
def table_insert (allocOk : Bool) (t : Table) (key : List Nat) (keylen : Nat)
    (data : Nat) : Option (Table × Int) :=
  let h := t.hash key keylen
  let r : Entry := { hash := h, key := some key, data := data, keylen := keylen,
                     probepos := 0, alive := true }
  let step := t.step_prime - h % t.step_prime
  if t.elements = t.size then some (t, -1)
  else
    let t1 := if 19 * t.size < 20 * t.elements then (grow_table allocOk t).getD t else t
    insert_loop t1 r step (insertFuel t1)

/-- `table_get` from `src/table.c`: success (`some data`) only when the search
result is strictly positive; a slot-0 hit and a miss both yield `none`
(`-1` with a `NULL`-ed data pointer in C). -/
def table_get (t : Table) (key : List Nat) (keylen : Nat) : Option Nat :=
  match internal_search t key keylen with
  | some pos => if 0 < pos then some ((t.slots.getD pos emptyEntry).data) else none
  | none => none

/-- `table_remove` from `src/table.c`: on a strictly positive search result,
clear the slot's alive flag, decrement `elements`, subtract the slot's
`probepos` from `totalweight`; otherwise return `-1` with the table
unchanged. -/
def table_remove (t : Table) (key : List Nat) (keylen : Nat) : Table × Int :=
  match internal_search t key keylen with
  | some pos =>
    if 0 < pos then
      let e := t.slots.getD pos emptyEntry
      ({ t with slots := t.slots.set pos { e with alive := false },
                elements := t.elements - 1,
                totalweight := t.totalweight - e.probepos }, 0)
    else (t, -1)
  | none => (t, -1)

/-- An empty table of the given geometry (used to state facts about small
concrete tables; `table_new` instantiates it at the default size 547). -/
def mkTable (size sp : Nat) (h : List Nat → Nat → Nat)
    (c : List Nat → List Nat → Nat → Int) : Table :=
  { slots := List.replicate size emptyEntry, size := size, step_prime := sp,
    totalweight := 0, maxprobe := 0, elements := 0, hash := h, cmp := c }

/-- `table_new` from `src/table.c`: default capacity 547, `step_prime`
computed by the downward walk, strategy functions defaulting to `table_hash`
and `table_cmp` when the caller passes `NULL`. -/
def table_new (h : Option (List Nat → Nat → Nat))
    (c : Option (List Nat → List Nat → Nat → Int)) : Table :=
  mkTable 547 (next_prime_step 547) (h.getD table_hash) (c.getD table_cmp)

/-- The weight a slot contributes to the aggregate `totalweight`:
its `probepos` if it is live, 0 otherwise. -/
def weightOf (e : Entry) : Nat := if e.alive then e.probepos else 0

/-- Sum of `probepos` over the live entries of a slot array. -/
def sumProbe (l : List Entry) : Nat := (l.map weightOf).sum

/-- Number of live slots. -/
def countAlive (l : List Entry) : Nat := l.countP (fun e => e.alive)

/-- Table states reachable from a fresh table by the public operations
(inserts with any allocation outcomes, removals, and growth steps). -/
inductive Reachable : Table → Prop where
  | new : ∀ h c, Reachable (table_new h c)
  | insert : ∀ t ok key keylen data t2 c, Reachable t →
      table_insert ok t key keylen data = some (t2, c) → Reachable t2
  | remove : ∀ t key keylen, Reachable t → Reachable (table_remove t key keylen).1
  | grow : ∀ t ok t2, Reachable t → grow_table ok t = some t2 → Reachable t2

/-! ## Concrete scenarios

Small concrete tables used to exercise the code on the inputs that decide
several claims.  `tC1` is a fresh default table whose (pluggable) hash sends
every key to 295386 = 541·546, so that the first probe
`(hash + step) % 547` lands on slot 0.  `tC3` is a size-5 table holding the
key `[1]` live at probe position 2 (slot 4) and the key `[2]` live at probe
position 1 (slot 1); both entries satisfy the placement invariant for
`size = 5`, `step_prime = 3`.  `t23 n` is the size-23 table (the same code
run at a small capacity for tractable evaluation; the default is 547)
obtained by inserting the keys `[0] … [n-1]` with the hash `[i] ↦ 19·i`,
which places every key at probe position 1 in a distinct slot. -/

/-- Hash strategy used for the claim-C1 scenario. -/
def hC1 : List Nat → Nat → Nat := fun _ _ => 295386

/-- Fresh default table with the slot-0-hitting hash. -/
def tC1 : Table := table_new (some hC1) none

/-- Hash strategy for the claim-C3 scenario. -/
def h3 : List Nat → Nat → Nat := fun k _ => if k = [1] then 3 else if k = [2] then 5 else 0

/-- Size-5 table with key `[1]` live at slot 4 (probe position 2, hash 3) and
key `[2]` live at slot 1 (probe position 1, hash 5).  Both placements satisfy
the invariant `slot = (hash + probepos·step) % size`. -/
def tC3 : Table :=
  { slots := [emptyEntry,
              { hash := 5, key := some [2], data := 20, keylen := 1, probepos := 1, alive := true },
              emptyEntry, emptyEntry,
              { hash := 3, key := some [1], data := 10, keylen := 1, probepos := 2, alive := true }],
    size := 5, step_prime := 3, totalweight := 3, maxprobe := 2, elements := 2,
    hash := h3, cmp := table_cmp }

/-- Hash strategy for the size-23 scenarios: `[i] ↦ 19·i`, so key `[i]`'s
first probe is slot `19·(i+1) % 23` and the keys `[0] … [21]` occupy 22
distinct slots at probe position 1. -/
def h23 : List Nat → Nat → Nat := fun k _ => 19 * k.headD 0

/-- One insertion step of the size-23 scenario. -/
def insStep (t : Table) (i : Nat) : Table :=
  match table_insert true t [i] 1 (100 + i) with
  | some (t2, _) => t2
  | none => t

/-- The size-23 table after inserting keys `[0] … [n-1]`. -/
def t23 (n : Nat) : Table := (List.range n).foldl insStep (mkTable 23 19 h23 table_cmp)

/-! ## Claim C1 -/

/-- Claim C1 (code bug): the round trip fails for a key stored at slot 0.
Starting from a fresh table (custom hash 295386 = 541·546, a legitimate
pluggable strategy), `table_insert` succeeds (returns 0) and stores the key
`[7]` with data 42 as a live entry at slot index 0, yet the subsequent
`table_get` on that key reports not-found (`none`, i.e. `-1` with a `NULL`
data pointer), because of the `pos > 0` success check. -/
theorem C1_roundtrip_fails_at_slot0 :
    (table_insert true tC1 [7] 1 42).map
        (fun p => (p.2, p.1.slots.getD 0 emptyEntry, table_get p.1 [7] 1)) =
      some (0, { hash := 295386, key := some [7], data := 42, keylen := 1,
                 probepos := 1, alive := true }, none) := by
  decide

/-! ## Claim C3 -/

/-- Claim C3 (counterexample): re-inserting a key that is already live does
not always upsert.  In `tC3` the key `[1]` is live (slot 4, data 10).
Inserting `[1]` again with data 99 returns success but the Robin-Hood
tie-break (`probepos` equal, new hash 3 < occupant hash 5) seats the key a
second time at slot 1: afterwards `elements` has increased from 2 to 3 and
both slot 1 and slot 4 hold live entries with key `[1]`. -/
theorem C3_second_live_copy :
    tC3.elements = 2 ∧ (tC3.slots.getD 4 emptyEntry).alive = true ∧
    (tC3.slots.getD 4 emptyEntry).key = some [1] ∧
    (table_insert true tC3 [1] 1 99).map
        (fun p => (p.2, p.1.elements, p.1.slots.getD 1 emptyEntry, p.1.slots.getD 4 emptyEntry)) =
      some (0, 3,
        { hash := 3, key := some [1], data := 99, keylen := 1, probepos := 1, alive := true },
        { hash := 3, key := some [1], data := 10, keylen := 1, probepos := 2, alive := true }) := by
  decide

/-! ## Claim C4 -/

/-- Claim C4 (code bug): an insert that triggers growth mid-call places its
key with the step derived from the old `step_prime`, breaking the placement
invariant.  `t23 22` has 22 live entries in 23 slots (load 0.956 > 0.95), so
inserting key `[22]` (hash 418) grows the table to size 59 with `step_prime`
53.  The key is then placed with the stale step `19 - 418 % 19 = 19` at slot
`(418 + 19) % 59 = 24`, while the invariant requires slot
`(418 + 1·(53 - 418 % 53)) % 59 = 11` for its recorded `probepos = 1`. -/
theorem C4_stale_step_misplaces_key :
    (table_insert true (t23 22) [22] 1 122).map
        (fun p => (p.2, p.1.size, p.1.step_prime, p.1.slots.getD 24 emptyEntry)) =
      some (0, 59, 53, { hash := 418, key := some [22], data := 122, keylen := 1,
                         probepos := 1, alive := true }) ∧
    (418 + 1 * (53 - 418 % 53)) % 59 = 11 ∧ (24 : Nat) ≠ 11 := by
  decide

/-! ## Claim C5 -/

/-- Claim C5 (counterexample): the growth trigger compares the load factor
before the insert, not after a hypothetical insert.  `t23 21` has 21 live
entries in 23 slots; a hypothetical insert would give load 22/23 > 0.95
(`19·23 = 437 < 440 = 20·22`), so the claim demands that growth run first.
The code compares 21/23 ≤ 0.95, runs no growth, and places the key in the
size-23 table, which afterwards holds 22 elements — beyond the threshold. -/
theorem C5_growth_not_run_on_hypothetical_load :
    19 * (t23 21).size < 20 * ((t23 21).elements + 1) ∧
    ¬ 19 * (t23 21).size < 20 * (t23 21).elements ∧
    (table_insert true (t23 21) [21] 1 121).map
        (fun p => (p.2, p.1.size, p.1.elements)) = some (0, 23, 22) := by
  decide

/-! ## Claim C6 -/

/-- Claim C6 (counterexample): for old capacity 10 the chosen growth capacity
is `next_prime_size 10 = 25`, which is not prime (the `i*i < n` trial
division accepts 25): the smallest prime ≥ ceil(10 × 2.5) = 25 is 29, so the
chosen capacity is neither prime nor the claimed value, and the primality
test decides the examined candidate 25 wrongly. -/
theorem C6_capacity_25_not_prime :
    next_prime_size 10 = 25 ∧ ¬ Nat.Prime 25 ∧
    Nat.Prime 29 ∧ (∀ m, 25 ≤ m → m < 29 → ¬ Nat.Prime m) := by
  decide

/-! ## Claim C7 -/

/-- Claim C7 (code bug): `table_insert` discards `grow_table`'s failure.
`t23 22` is over the load threshold (`19·23 < 20·22`), so the insert calls
`grow_table`; with the allocation failing (`allocOk = false`) `grow_table`
reports failure (`none`) and leaves the table untouched, but `table_insert`
ignores the result, places the key in the unexpanded size-23 table, and
returns success (0) — filling the table completely — instead of propagating
the failure. -/
theorem C7_alloc_failure_swallowed :
    19 * (t23 22).size < 20 * (t23 22).elements ∧
    (grow_table false (t23 22)).isSome = false ∧
    (table_insert false (t23 22) [22] 1 122).map
        (fun p => (p.2, p.1.size, p.1.elements)) = some (0, 23, 23) := by
  decide

/-! ## Search soundness (claims C8, C9) -/

/-- A `found` result of the upward probe points at a live slot whose stored
key the table's comparison function reports equal, and the index is a
residue modulo `size`. -/
theorem probe_top_found {t : Table} {key : List Nat} {keylen hash step start walk p : Nat}
    (hsz : 0 < t.size)
    (h : probe_top t key keylen hash step start walk = Probe.found p) :
    p < t.size ∧ (t.slots.getD p emptyEntry).alive = true ∧
      t.cmp key ((t.slots.getD p emptyEntry).key.getD []) keylen = 0 := by
  simp only [probe_top] at h
  split at h
  · split at h
    · exact absurd h (by simp)
    · split at h
      · rename_i halive
        cases h
        exact ⟨Nat.mod_lt _ hsz, halive.1, halive.2⟩
      · exact absurd h (by simp)
  · exact absurd h (by simp)

/-- A `found` result of the downward probe points at a live slot whose stored
key the table's comparison function reports equal. -/
theorem probe_bot_found {t : Table} {key : List Nat} {keylen hash step start walk p : Nat}
    (hsz : 0 < t.size)
    (h : probe_bot t key keylen hash step start walk = Probe.found p) :
    p < t.size ∧ (t.slots.getD p emptyEntry).alive = true ∧
      t.cmp key ((t.slots.getD p emptyEntry).key.getD []) keylen = 0 := by
  simp only [probe_bot] at h
  split at h
  · split at h
    · rename_i halive
      cases h
      exact ⟨Nat.mod_lt _ hsz, halive.1, halive.2⟩
    · exact absurd h (by simp)
  · exact absurd h (by simp)

/-- Soundness of the bidirectional walk: any returned index is a live,
key-equal slot. -/
theorem search_loop_sound {t : Table} {key : List Nat} {keylen hash step start : Nat}
    (hsz : 0 < t.size) :
    ∀ fuel walk topdone botdone p,
      search_loop t key keylen hash step start fuel walk topdone botdone = some p →
      p < t.size ∧ (t.slots.getD p emptyEntry).alive = true ∧
        t.cmp key ((t.slots.getD p emptyEntry).key.getD []) keylen = 0 := by
  intro fuel
  induction fuel with
  | zero => intro walk td bd p h; simp [search_loop] at h
  | succ n ih =>
    intro walk td bd p h
    simp only [search_loop] at h
    cases hpt : (if td then Probe.halt else probe_top t key keylen hash step start walk) with
    | found q =>
      rw [hpt] at h
      simp only [Option.some.injEq] at h
      subst h
      by_cases htd : td
      · rw [if_pos htd] at hpt; exact absurd hpt (by simp)
      · rw [if_neg htd] at hpt; exact probe_top_found hsz hpt
    | halt =>
      rw [hpt] at h
      simp only at h
      cases hpb : (if bd then Probe.halt else probe_bot t key keylen hash step start walk) with
      | found q =>
        rw [hpb] at h
        simp only [Option.some.injEq] at h
        subst h
        by_cases hbd : bd
        · rw [if_pos hbd] at hpb; exact absurd hpb (by simp)
        · rw [if_neg hbd] at hpb; exact probe_bot_found hsz hpb
      | halt =>
        rw [hpb] at h
        simp only at h
        split at h
        · exact absurd h (by simp)
        · exact ih _ _ _ _ h
      | miss =>
        rw [hpb] at h
        simp only at h
        split at h
        · exact absurd h (by simp)
        · exact ih _ _ _ _ h
    | miss =>
      rw [hpt] at h
      simp only at h
      cases hpb : (if bd then Probe.halt else probe_bot t key keylen hash step start walk) with
      | found q =>
        rw [hpb] at h
        simp only [Option.some.injEq] at h
        subst h
        by_cases hbd : bd
        · rw [if_pos hbd] at hpb; exact absurd hpb (by simp)
        · rw [if_neg hbd] at hpb; exact probe_bot_found hsz hpb
      | halt =>
        rw [hpb] at h
        simp only at h
        split at h
        · exact absurd h (by simp)
        · exact ih _ _ _ _ h
      | miss =>
        rw [hpb] at h
        simp only at h
        split at h
        · exact absurd h (by simp)
        · exact ih _ _ _ _ h

/-- Soundness of `internal_search`: a returned slot index is in range and
points at a live entry whose stored key the comparison strategy reports
equal to the searched key. -/
theorem internal_search_sound {t : Table} {key : List Nat} {keylen p : Nat}
    (hsz : 0 < t.size) (h : internal_search t key keylen = some p) :
    p < t.size ∧ (t.slots.getD p emptyEntry).alive = true ∧
      t.cmp key ((t.slots.getD p emptyEntry).key.getD []) keylen = 0 := by
  simp only [internal_search] at h
  split at h
  · exact absurd h (by simp)
  · exact search_loop_sound hsz _ _ _ _ _ h

/-- Size-5 table whose single live entry (key `[9]`, hash 2, probe position
3) occupies slot 0 = `(2 + 3·1) % 5`, and whose search statistics
(`totalweight = maxprobe = 3`, `elements = 1`) make `internal_search` find
it at slot 0. -/
def tC8 : Table :=
  { slots := [{ hash := 2, key := some [9], data := 77, keylen := 1, probepos := 3, alive := true },
              emptyEntry, emptyEntry, emptyEntry, emptyEntry],
    size := 5, step_prime := 3, totalweight := 3, maxprobe := 3, elements := 1,
    hash := fun _ _ => 2, cmp := table_cmp }

/-! ## Claim C8 -/

/-- Claim C8 (confirmed): the slot-0 convention.  Whenever `internal_search`
resolves a key to slot index 0, `table_get` reports not-found (`none`, i.e.
`-1` and a `NULL` data pointer) and `table_remove` reports not-found and
returns the table unchanged — no hypothesis excludes a live matching entry
at slot 0 (the witness instantiates exactly that case).  Conversely, success
of either operation entails a search result at an index strictly greater
than 0. -/
theorem C8_slot0_reported_not_found :
    (∀ (t : Table) (key : List Nat) (keylen : Nat),
        internal_search t key keylen = some 0 →
        table_get t key keylen = none ∧ table_remove t key keylen = (t, -1)) ∧
    (∀ (t : Table) (key : List Nat) (keylen d : Nat),
        table_get t key keylen = some d →
        ∃ p, internal_search t key keylen = some p ∧ 0 < p) ∧
    (∀ (t : Table) (key : List Nat) (keylen : Nat) (res : Table × Int),
        table_remove t key keylen = res → res.2 = 0 →
        ∃ p, internal_search t key keylen = some p ∧ 0 < p) := by
  refine ⟨fun t key keylen h => ?_, fun t key keylen d h => ?_, fun t key keylen res h h0 => ?_⟩
  · constructor
    · simp [table_get, h]
    · simp [table_remove, h]
  · simp only [table_get] at h
    split at h
    · rename_i pos hpos
      split at h
      · exact ⟨pos, hpos, by assumption⟩
      · exact absurd h (by simp)
    · exact absurd h (by simp)
  · simp only [table_remove] at h
    split at h
    · rename_i pos hpos
      split at h
      · exact ⟨pos, hpos, by assumption⟩
      · subst h; simp at h0
    · subst h; simp at h0

/-- Witness for claim C8: in `tC8` the key `[9]` occupies slot 0 as a live,
matching entry and `internal_search` resolves it to slot 0, yet `table_get`
returns not-found and `table_remove` leaves the table unchanged with `-1`. -/
theorem C8_slot0_reported_not_found_witness :
    internal_search tC8 [9] 1 = some 0 ∧
    (tC8.slots.getD 0 emptyEntry).alive = true ∧
    (tC8.slots.getD 0 emptyEntry).key = some [9] ∧
    table_get tC8 [9] 1 = none ∧ table_remove tC8 [9] 1 = (tC8, -1) :=
  ⟨by decide, by decide, by decide,
   (C8_slot0_reported_not_found.1 tC8 [9] 1 (by decide)).1,
   (C8_slot0_reported_not_found.1 tC8 [9] 1 (by decide)).2⟩

/-! ## Claim C9 -/

/-- Claim C9 (confirmed): search soundness.  Whenever `internal_search`
returns a slot index, that index is in range, the entry there is alive, and
the table's comparison function reports the stored key equal to the searched
key over `keylen` bytes; consequently any data returned by `table_get` is the
data of a live, key-equal entry (never of a dead entry or of a key comparing
unequal). -/
theorem C9_search_soundness :
    (∀ (t : Table) (key : List Nat) (keylen p : Nat), 0 < t.size →
        internal_search t key keylen = some p →
        p < t.size ∧ (t.slots.getD p emptyEntry).alive = true ∧
          t.cmp key ((t.slots.getD p emptyEntry).key.getD []) keylen = 0) ∧
    (∀ (t : Table) (key : List Nat) (keylen d : Nat), 0 < t.size →
        table_get t key keylen = some d →
        ∃ p, internal_search t key keylen = some p ∧
          (t.slots.getD p emptyEntry).alive = true ∧
          t.cmp key ((t.slots.getD p emptyEntry).key.getD []) keylen = 0 ∧
          d = (t.slots.getD p emptyEntry).data) := by
  refine ⟨fun t key keylen p hsz h => internal_search_sound hsz h,
          fun t key keylen d hsz h => ?_⟩
  simp only [table_get] at h
  split at h
  · rename_i pos hpos
    split at h
    · have hs := internal_search_sound hsz hpos
      simp only [Option.some.injEq] at h
      exact ⟨pos, hpos, hs.2.1, hs.2.2, h.symm⟩
    · exact absurd h (by simp)
  · exact absurd h (by simp)

/-- Witness for claim C9: in `tC3`, searching for the key `[1]` returns slot
4, which is live with a key the comparison function reports equal. -/
theorem C9_search_soundness_witness :
    internal_search tC3 [1] 1 = some 4 ∧
    (tC3.slots.getD 4 emptyEntry).alive = true ∧
    tC3.cmp [1] ((tC3.slots.getD 4 emptyEntry).key.getD []) 1 = 0 :=
  ⟨by decide,
   (C9_search_soundness.1 tC3 [1] 1 4 (by decide) (by decide)).2.1,
   (C9_search_soundness.1 tC3 [1] 1 4 (by decide) (by decide)).2.2⟩

/-! ## Geometry preservation by the insert machinery (claim C5) -/

/-- The probe/displacement loop never changes the table's geometry
(`size`, `step_prime`), its strategies, and can raise `elements` by at most
one. -/
theorem insert_loop_geometry :
    ∀ fuel (t : Table) (r : Entry) (step : Nat) (t2 : Table) (c : Int),
      insert_loop t r step fuel = some (t2, c) →
      t2.size = t.size ∧ t2.step_prime = t.step_prime ∧
        t2.elements ≤ t.elements + 1 ∧ t2.hash = t.hash ∧ t2.cmp = t.cmp := by
  intro fuel
  induction fuel with
  | zero => intro t r step t2 c h; simp [insert_loop] at h
  | succ n ih =>
    intro t r step t2 c h
    simp only [insert_loop] at h
    split at h
    · split at h
      · split at h
        · simp only [Option.some.injEq, Prod.mk.injEq] at h
          obtain ⟨h1, -⟩ := h
          subst h1
          exact ⟨rfl, rfl, Nat.le_succ _, rfl, rfl⟩
        · simp only [Option.some.injEq, Prod.mk.injEq] at h
          obtain ⟨h1, -⟩ := h
          subst h1
          exact ⟨rfl, rfl, Nat.le_refl _, rfl, rfl⟩
      · simp only [Option.some.injEq, Prod.mk.injEq] at h
        obtain ⟨h1, -⟩ := h
        subst h1
        exact ⟨rfl, rfl, Nat.le_refl _, rfl, rfl⟩
    · split at h
      · have h2 := ih _ _ _ _ _ h
        exact h2
      · split at h
        · simp only [Option.some.injEq, Prod.mk.injEq] at h
          obtain ⟨h1, -⟩ := h
          subst h1
          exact ⟨rfl, rfl, Nat.le_succ _, rfl, rfl⟩
        · have h2 := ih _ _ _ _ _ h
          exact h2

/-- `insert_basic` preserves the geometry and strategies and raises
`elements` by at most one. -/
theorem insert_basic_geometry {t : Table} {key : List Nat} {keylen data : Nat}
    {t2 : Table} {c : Int} (h : insert_basic t key keylen data = some (t2, c)) :
    t2.size = t.size ∧ t2.step_prime = t.step_prime ∧
      t2.elements ≤ t.elements + 1 ∧ t2.hash = t.hash ∧ t2.cmp = t.cmp := by
  simp only [insert_basic] at h
  split at h
  · simp only [Option.some.injEq, Prod.mk.injEq] at h
    obtain ⟨h1, -⟩ := h
    subst h1
    exact ⟨rfl, rfl, Nat.le_succ _, rfl, rfl⟩
  · exact insert_loop_geometry _ _ _ _ _ _ h

/-- The replay fold of `grow_table` preserves geometry and strategies. -/
theorem replay_geometry (l : List Entry) :
    ∀ acc : Table,
      (l.foldl (fun acc e =>
        if e.alive then
          match insert_basic acc (e.key.getD []) e.keylen e.data with
          | some (t2, _) => t2
          | none => acc
        else acc) acc).size = acc.size ∧
      (l.foldl (fun acc e =>
        if e.alive then
          match insert_basic acc (e.key.getD []) e.keylen e.data with
          | some (t2, _) => t2
          | none => acc
        else acc) acc).step_prime = acc.step_prime ∧
      (l.foldl (fun acc e =>
        if e.alive then
          match insert_basic acc (e.key.getD []) e.keylen e.data with
          | some (t2, _) => t2
          | none => acc
        else acc) acc).hash = acc.hash ∧
      (l.foldl (fun acc e =>
        if e.alive then
          match insert_basic acc (e.key.getD []) e.keylen e.data with
          | some (t2, _) => t2
          | none => acc
        else acc) acc).cmp = acc.cmp := by
  induction l with
  | nil => intro acc; exact ⟨rfl, rfl, rfl, rfl⟩
  | cons e l ih =>
    intro acc
    simp only [List.foldl_cons]
    obtain ⟨i1, i2, i3, i4⟩ := ih (if e.alive then
      match insert_basic acc (e.key.getD []) e.keylen e.data with
      | some (t2, _) => t2
      | none => acc
      else acc)
    refine ⟨i1.trans ?_, i2.trans ?_, i3.trans ?_, i4.trans ?_⟩
    all_goals
      split
      · rcases hb : insert_basic acc (e.key.getD []) e.keylen e.data with - | ⟨t2, c⟩
        · simp
        · have hg := insert_basic_geometry hb
          simp only [hb]
          tauto
      · rfl

/-- A successful `grow_table` yields the geometry dictated by the sizing
policy, with strategies preserved. -/
theorem grow_table_geometry {t t2 : Table} {ok : Bool}
    (h : grow_table ok t = some t2) :
    t2.size = next_prime_size t.size ∧
      t2.step_prime = next_prime_step (next_prime_size t.size) ∧
      t2.hash = t.hash ∧ t2.cmp = t.cmp := by
  simp only [grow_table] at h
  split at h
  · exact absurd h (by simp)
  · simp only [Option.some.injEq] at h
    subst h
    obtain ⟨i1, i2, i3, i4⟩ := replay_geometry t.slots _
    exact ⟨i1, i2, i3, i4⟩

/-! ## Claim C5, amended -/

/-- Claim C5 (amended): the growth trigger compares the load factor before
the insert.  If the pre-insert load factor does not exceed 0.95
(`20·elements ≤ 19·size`), no growth runs: a completed insert keeps `size`
and `step_prime` and ends with `20·elements ≤ 19·size + 20` (the one-insert
slack).  If the pre-insert load factor strictly exceeds 0.95 (and the table
is not physically full), growth runs before the key is placed: the completed
insert ends at capacity `next_prime_size size`. -/
theorem C5_growth_trigger_amended :
    (∀ (ok : Bool) (t : Table) (key : List Nat) (keylen data : Nat) (t2 : Table) (c : Int),
        ¬ 19 * t.size < 20 * t.elements →
        table_insert ok t key keylen data = some (t2, c) →
        t2.size = t.size ∧ t2.step_prime = t.step_prime ∧
          20 * t2.elements ≤ 19 * t.size + 20) ∧
    (∀ (t : Table) (key : List Nat) (keylen data : Nat) (t2 : Table) (c : Int),
        t.elements ≠ t.size → 19 * t.size < 20 * t.elements →
        table_insert true t key keylen data = some (t2, c) →
        t2.size = next_prime_size t.size) := by
  constructor
  · intro ok t key keylen data t2 c hload h
    simp only [table_insert] at h
    split at h
    · simp only [Option.some.injEq, Prod.mk.injEq] at h
      obtain ⟨h1, -⟩ := h
      subst h1
      omega
    · have h2 := insert_loop_geometry _ _ _ _ _ _ h
      refine ⟨h2.1, h2.2.1, ?_⟩
      have := h2.2.2.1
      omega
  · intro t key keylen data t2 c hne hload h
    simp only [table_insert] at h
    split at h
    · rename_i hc; exact absurd hc hne
    · obtain ⟨G, hG⟩ : ∃ G, grow_table true t = some G := ⟨_, rfl⟩
      rw [hG] at h
      simp only [Option.getD_some] at h
      have h2 := insert_loop_geometry _ _ _ _ _ _ h
      exact h2.1.trans (grow_table_geometry hG).1

/-- Result table of the non-growing insert into `t23 21`. -/
def tC5res : Table :=
  ((table_insert true (t23 21) [21] 1 121).getD (mkTable 23 19 h23 table_cmp, 0)).1

/-- Result table of the growth-triggering insert into `t23 22`. -/
def tC4res : Table :=
  ((table_insert true (t23 22) [22] 1 122).getD (mkTable 23 19 h23 table_cmp, 0)).1

/-- Witness for the amended claim C5: the insert into `t23 21` (load
21/23 ≤ 0.95) keeps the geometry and respects the slack bound, while the
insert into `t23 22` (load 22/23 > 0.95) grows to `next_prime_size 23`. -/
theorem C5_growth_trigger_amended_witness :
    (tC5res.size = (t23 21).size ∧ tC5res.step_prime = (t23 21).step_prime ∧
      20 * tC5res.elements ≤ 19 * (t23 21).size + 20) ∧
    tC4res.size = next_prime_size (t23 22).size :=
  ⟨C5_growth_trigger_amended.1 true (t23 21) [21] 1 121 tC5res 0 (by decide) (by rfl),
   C5_growth_trigger_amended.2 (t23 22) [22] 1 122 tC4res 0 (by decide) (by decide) (by rfl)⟩

/-! ## Conditional upsert (claim C3, amended) -/

/-- If every probe position strictly between the candidate's current one and
`p` holds a live entry probing deeper than the walk (so the loop neither
places nor swaps), and probe `p` holds a live entry with the candidate's own
hash, probe position `p`, and byte-equal key, then the loop performs the
upsert: the data at that slot is overwritten in place, and nothing else
changes (the `p` `totalweight` increments are cancelled by the final
subtraction, leaving `totalweight + cnt - p`, i.e. unchanged for a walk
started at probe position 0 with `cnt = p`). -/
theorem upsert_walk :
    ∀ (cnt fuel : Nat) (t : Table) (r : Entry) (step p : Nat),
      1 ≤ cnt → cnt ≤ fuel → r.probepos + cnt = p →
      (∀ j, r.probepos < j → j < p →
        (t.slots.getD ((r.hash + j * step) % t.size) emptyEntry).alive = true ∧
        j < (t.slots.getD ((r.hash + j * step) % t.size) emptyEntry).probepos) →
      (t.slots.getD ((r.hash + p * step) % t.size) emptyEntry).alive = true →
      (t.slots.getD ((r.hash + p * step) % t.size) emptyEntry).probepos = p →
      (t.slots.getD ((r.hash + p * step) % t.size) emptyEntry).hash = r.hash →
      strncmp (r.key.getD [])
        (((t.slots.getD ((r.hash + p * step) % t.size) emptyEntry)).key.getD [])
        r.keylen = 0 →
      insert_loop t r step fuel =
        some ({ t with
                slots := t.slots.set ((r.hash + p * step) % t.size)
                  { t.slots.getD ((r.hash + p * step) % t.size) emptyEntry with data := r.data },
                totalweight := t.totalweight + cnt - p }, 0) := by
  intro cnt
  induction cnt with
  | zero => intro fuel t r step p h1 _ _ _ _ _ _ _; omega
  | succ k ih =>
    intro fuel t r step p h1 hfuel hpp hpass halive hprobe hhash hkey
    obtain ⟨f, rfl⟩ : ∃ f, fuel = f + 1 := ⟨fuel - 1, by omega⟩
    rcases Nat.eq_zero_or_pos k with hk | hk
    · subst hk
      have hp : r.probepos + 1 = p := by omega
      simp only [insert_loop, hp]
      rw [if_neg (by rw [halive]; exact fun hc => Bool.noConfusion hc),
        if_neg (by rw [hprobe, hhash]; omega),
        if_pos ⟨hprobe, hhash.symm, hkey⟩]
    · have hp1 : r.probepos + 1 < p := by omega
      obtain ⟨ha, hlt⟩ := hpass (r.probepos + 1) (by omega) hp1
      simp only [insert_loop]
      rw [if_neg (by rw [ha]; exact fun hc => Bool.noConfusion hc),
        if_neg (by rw [show ({ r with probepos := r.probepos + 1 } : Entry).hash = r.hash from rfl]; omega),
        if_neg (fun hc => absurd hc.1 (by omega))]
      have happ := ih f { t with totalweight := t.totalweight + 1 }
        { r with probepos := r.probepos + 1 } step p hk (by omega) (by simp; omega)
        (fun j hj1 hj2 => hpass j (by simp at hj1; omega) hj2)
        halive hprobe hhash hkey
      rw [happ]
      simp only [Option.some.injEq, Prod.mk.injEq, Table.mk.injEq, and_true, true_and,
        eq_self_iff_true]
      omega

/-- Size-5 table with the key `[1]` (hash 3) live at probe position 1,
slot `(3 + 1·3) % 5 = 1`; used to witness the amended upsert claim. -/
def tU : Table :=
  { slots := [emptyEntry,
              { hash := 3, key := some [1], data := 10, keylen := 1, probepos := 1, alive := true },
              emptyEntry, emptyEntry, emptyEntry],
    size := 5, step_prime := 3, totalweight := 1, maxprobe := 1, elements := 1,
    hash := h3, cmp := table_cmp }

/-- Claim C3 (amended): re-inserting a key already present as a live entry at
probe position `p` of its own sequence is an in-place upsert, provided the
walk reaches it first: when every probe position `0 < j < p` of the key's
sequence holds a live entry whose `probepos` exceeds `j` (so the loop
neither places, recycles, nor swaps before probe `p`), the insert overwrites
the stored data at the entry's slot and changes nothing else — in particular
`elements`, `maxprobe` and `totalweight` are unchanged and no second live
entry is created.  (Without that proviso a swap or free slot earlier on the
walk can seat the key a second time and increase `elements`, as the
counterexample shows.) -/
theorem C3_upsert_amended :
    ∀ (ok : Bool) (t : Table) (key : List Nat) (keylen data p : Nat),
      t.elements ≠ t.size →
      ¬ 19 * t.size < 20 * t.elements →
      1 ≤ p → p ≤ t.size →
      (∀ j, 0 < j → j < p →
        (t.slots.getD ((t.hash key keylen + j * (t.step_prime - t.hash key keylen % t.step_prime)) % t.size) emptyEntry).alive = true ∧
        j < (t.slots.getD ((t.hash key keylen + j * (t.step_prime - t.hash key keylen % t.step_prime)) % t.size) emptyEntry).probepos) →
      (t.slots.getD ((t.hash key keylen + p * (t.step_prime - t.hash key keylen % t.step_prime)) % t.size) emptyEntry).alive = true →
      (t.slots.getD ((t.hash key keylen + p * (t.step_prime - t.hash key keylen % t.step_prime)) % t.size) emptyEntry).probepos = p →
      (t.slots.getD ((t.hash key keylen + p * (t.step_prime - t.hash key keylen % t.step_prime)) % t.size) emptyEntry).hash = t.hash key keylen →
      strncmp key
        ((t.slots.getD ((t.hash key keylen + p * (t.step_prime - t.hash key keylen % t.step_prime)) % t.size) emptyEntry).key.getD [])
        keylen = 0 →
      table_insert ok t key keylen data =
        some ({ t with
                slots := t.slots.set
                  ((t.hash key keylen + p * (t.step_prime - t.hash key keylen % t.step_prime)) % t.size)
                  { t.slots.getD ((t.hash key keylen + p * (t.step_prime - t.hash key keylen % t.step_prime)) % t.size) emptyEntry
                    with data := data } }, 0) := by
  intro ok t key keylen data p hne hload hp1 hp2 hpass halive hprobe hhash hkey
  simp only [table_insert]
  rw [if_neg hne, if_neg hload]
  have hfuel : p ≤ insertFuel t := by
    simp only [insertFuel]; omega
  have happ := upsert_walk p (insertFuel t) t
    { hash := t.hash key keylen, key := some key, data := data, keylen := keylen,
      probepos := 0, alive := true }
    (t.step_prime - t.hash key keylen % t.step_prime) p hp1 hfuel (by simp)
    hpass halive hprobe hhash hkey
  rw [happ]
  have htw : t.totalweight + p - p = t.totalweight := by omega
  rw [htw]

/-- Witness for the amended claim C3: re-inserting `[1]` into `tU` with data
99 updates the data in place at slot 1 and changes nothing else. -/
theorem C3_upsert_amended_witness :
    table_insert true tU [1] 1 99 =
      some ({ tU with
              slots := tU.slots.set
                ((tU.hash [1] 1 + 1 * (tU.step_prime - tU.hash [1] 1 % tU.step_prime)) % tU.size)
                { tU.slots.getD ((tU.hash [1] 1 + 1 * (tU.step_prime - tU.hash [1] 1 % tU.step_prime)) % tU.size) emptyEntry
                  with data := 99 } }, 0) :=
  C3_upsert_amended true tU [1] 1 99 1 (by decide) (by decide) (by decide) (by decide)
    (fun j hj1 hjp => absurd hjp (by omega))
    (by decide) (by decide) (by decide) (by decide)

/-! ## The sizing policy (claim C6) -/

/-- Characterization of the trial-division loop for sufficient fuel: it
accepts `n` exactly when no candidate `i + 6k` (with `(i+6k)² < n`) or its
companion `i + 6k + 2` divides `n`. -/
theorem is_prime_loop_true_iff (n : Nat) :
    ∀ fuel i, n ≤ (i + 6 * fuel) * (i + 6 * fuel) →
      (is_prime_loop n i fuel = true ↔
        ∀ k, (i + 6 * k) * (i + 6 * k) < n →
          n % (i + 6 * k) ≠ 0 ∧ n % (i + 6 * k + 2) ≠ 0) := by
  intro fuel
  induction fuel with
  | zero =>
    intro i hle
    simp only [is_prime_loop, true_iff]
    intro k hk
    exfalso
    have hmono : i * i ≤ (i + 6 * k) * (i + 6 * k) :=
      Nat.mul_le_mul (by omega) (by omega)
    simp only [Nat.mul_zero, Nat.add_zero] at hle
    omega
  | succ f ih =>
    intro i hle
    simp only [is_prime_loop]
    split
    · rename_i hlt
      split
      · rename_i hdvd
        simp only [Bool.or_eq_true, decide_eq_true_eq] at hdvd
        constructor
        · intro hfalse; exact absurd hfalse (by simp)
        · intro H
          obtain ⟨h1, h2⟩ := H 0 (by simpa using hlt)
          simp only [Nat.mul_zero, Nat.add_zero] at h1 h2
          rcases hdvd with h | h
          · exact absurd h h1
          · exact absurd h h2
      · rename_i hdvd
        simp only [Bool.or_eq_true, decide_eq_true_eq] at hdvd
        push_neg at hdvd
        have hle6 : n ≤ (i + 6 + 6 * f) * (i + 6 + 6 * f) := by
          have he : i + 6 + 6 * f = i + 6 * (f + 1) := by ring
          rw [he]; exact hle
        rw [ih (i + 6) hle6]
        constructor
        · intro H k hk
          cases k with
          | zero =>
            simp only [Nat.mul_zero, Nat.add_zero]
            exact hdvd
          | succ k2 =>
            have he : i + 6 * (k2 + 1) = i + 6 + 6 * k2 := by ring
            rw [he] at hk ⊢
            exact H k2 hk
        · intro H k hk
          have he : i + 6 + 6 * k = i + 6 * (k + 1) := by ring
          rw [he] at hk ⊢
          exact H (k + 1) hk
    · rename_i hge
      simp only [true_iff]
      intro k hk
      exfalso
      have hmono : i * i ≤ (i + 6 * k) * (i + 6 * k) :=
        Nat.mul_le_mul (by omega) (by omega)
      omega

/-- Exact characterization of the `is_prime` test: it accepts precisely the
primes and the squares of primes congruent to 5 mod 6 (the `i*i < n` guard
stops one block short of `sqrt n` on such squares; e.g. 25, 121, 289). -/
theorem is_prime_iff (n : Nat) :
    is_prime n = true ↔
      (Nat.Prime n ∨ ∃ p, Nat.Prime p ∧ p % 6 = 5 ∧ n = p * p) := by
  have hfuel : n ≤ (5 + 6 * n) * (5 + 6 * n) := by
    calc n ≤ 5 + 6 * n := by omega
    _ ≤ (5 + 6 * n) * (5 + 6 * n) := Nat.le_mul_of_pos_left _ (by omega)
  constructor
  · intro h
    by_cases hn1 : n ≤ 1
    · rw [is_prime, if_pos hn1] at h; exact absurd h (by simp)
    by_cases hn3 : n ≤ 3
    · left
      have : n = 2 ∨ n = 3 := by omega
      rcases this with rfl | rfl
      · exact Nat.prime_two
      · exact Nat.prime_three
    by_cases hd2 : n % 2 = 0
    · rw [is_prime, if_neg hn1, if_neg hn3, if_pos (by simp [hd2])] at h
      exact absurd h (by simp)
    by_cases hd3 : n % 3 = 0
    · rw [is_prime, if_neg hn1, if_neg hn3, if_pos (by simp [hd3])] at h
      exact absurd h (by simp)
    rw [is_prime, if_neg hn1, if_neg hn3, if_neg (by simp [hd2, hd3])] at h
    have H := (is_prime_loop_true_iff n n 5 hfuel).mp h
    by_cases hp : Nat.Prime n
    · exact Or.inl hp
    · right
      have hq : Nat.Prime n.minFac := Nat.minFac_prime (by omega)
      have hqd : n.minFac ∣ n := Nat.minFac_dvd n
      have hqs : n.minFac * n.minFac ≤ n := by
        have := Nat.minFac_sq_le_self (by omega) hp
        simpa [Nat.pow_two] using this
      have hmod : n % n.minFac = 0 := Nat.mod_eq_zero_of_dvd hqd
      have hq2 : n.minFac ≠ 2 := by intro h2; rw [h2] at hmod; omega
      have hq3 : n.minFac ≠ 3 := by intro h3; rw [h3] at hmod; omega
      have hq4 : n.minFac ≠ 4 := by
        intro h4; rw [h4] at hq; norm_num at hq
      have hq5 : 5 ≤ n.minFac := by have := hq.two_le; omega
      have hqm2 : n.minFac % 2 = 1 := by
        rcases Nat.mod_two_eq_zero_or_one n.minFac with he | he
        · exfalso
          have hdd : (2 : Nat) ∣ n.minFac := by omega
          have := hq.eq_one_or_self_of_dvd 2 hdd
          omega
        · exact he
      have hqm3 : n.minFac % 3 ≠ 0 := by
        intro he
        have hdd : (3 : Nat) ∣ n.minFac := by omega
        have := hq.eq_one_or_self_of_dvd 3 hdd
        omega
      have hq6 : n.minFac % 6 = 1 ∨ n.minFac % 6 = 5 := by omega
      rcases hq6 with h1 | h5
      · exfalso
        have hq7 : 7 ≤ n.minFac := by omega
        obtain ⟨k, hk⟩ : ∃ k, n.minFac - 2 = 5 + 6 * k := ⟨(n.minFac - 7) / 6, by omega⟩
        have hsq : (5 + 6 * k) * (5 + 6 * k) < n := by
          have h1lt : (n.minFac - 2) * (n.minFac - 2) < n.minFac * n.minFac :=
            Nat.mul_lt_mul_of_lt_of_le (by omega) (by omega) (by omega)
          rw [← hk]
          omega
        have hC := (H k hsq).2
        have h52 : 5 + 6 * k + 2 = n.minFac := by omega
        rw [h52] at hC
        exact hC hmod
      · rcases Nat.lt_or_ge (n.minFac * n.minFac) n with hlt | hge
        · exfalso
          obtain ⟨k, hk⟩ : ∃ k, n.minFac = 5 + 6 * k := ⟨(n.minFac - 5) / 6, by omega⟩
          have hsq : (5 + 6 * k) * (5 + 6 * k) < n := by rw [← hk]; exact hlt
          have hC := (H k hsq).1
          rw [← hk] at hC
          exact hC hmod
        · exact ⟨n.minFac, hq, h5, by omega⟩
  · intro h
    rcases h with hp | ⟨p, hp, hp5, rfl⟩
    · have h2 := hp.two_le
      by_cases hn3 : n ≤ 3
      · rw [is_prime, if_neg (by omega), if_pos hn3]
      · have hd2 : n % 2 ≠ 0 := by
          intro he
          have hdd : (2 : Nat) ∣ n := by omega
          have := hp.eq_one_or_self_of_dvd 2 hdd
          omega
        have hd3 : n % 3 ≠ 0 := by
          intro he
          have hdd : (3 : Nat) ∣ n := by omega
          have := hp.eq_one_or_self_of_dvd 3 hdd
          omega
        rw [is_prime, if_neg (by omega), if_neg hn3, if_neg (by simp [hd2, hd3]),
          is_prime_loop_true_iff n n 5 hfuel]
        intro k hk
        have hmlt : 5 + 6 * k < n := by
          have hge : 5 + 6 * k ≤ (5 + 6 * k) * (5 + 6 * k) :=
            Nat.le_mul_of_pos_left _ (by omega)
          omega
        have h5m : 5 * (5 + 6 * k) ≤ (5 + 6 * k) * (5 + 6 * k) :=
          Nat.mul_le_mul_right _ (by omega)
        constructor
        · intro hmod
          have hdvd : (5 + 6 * k) ∣ n := (Nat.dvd_iff_mod_eq_zero).mpr hmod
          have := hp.eq_one_or_self_of_dvd _ hdvd
          omega
        · intro hmod
          have hdvd : (5 + 6 * k + 2) ∣ n := (Nat.dvd_iff_mod_eq_zero).mpr hmod
          have := hp.eq_one_or_self_of_dvd _ hdvd
          omega
    · have hp5le : 5 ≤ p := by omega
      have hsq5 : 25 ≤ p * p := Nat.mul_le_mul hp5le hp5le
      have h5p : 5 * p ≤ p * p := Nat.mul_le_mul_right p hp5le
      have hm2 : p % 2 = 1 := by omega
      have hm3 : p % 3 = 2 := by omega
      have hmod2 : p * p % 2 = 1 := by rw [Nat.mul_mod, hm2]
      have hmod3 : p * p % 3 = 1 := by rw [Nat.mul_mod, hm3]
      have hdiv : ∀ m, m ∣ p * p → m = 1 ∨ m = p ∨ m = p * p := by
        intro m hm
        have hpp : m ∣ p ^ 2 := by rwa [Nat.pow_two]
        obtain ⟨j, hj, hmj⟩ := (Nat.dvd_prime_pow hp).mp hpp
        interval_cases j
        · simp at hmj; omega
        · simp at hmj; omega
        · right; right; rw [hmj, Nat.pow_two]
      rw [is_prime, if_neg (by omega), if_neg (by omega),
        if_neg (by simp; omega),
        is_prime_loop_true_iff _ _ 5 (by
          calc p * p ≤ 5 + 6 * (p * p) := by omega
          _ ≤ (5 + 6 * (p * p)) * (5 + 6 * (p * p)) := Nat.le_mul_of_pos_left _ (by omega))]
      intro k hk
      have hmp : 5 + 6 * k < p := by
        by_contra hc
        push_neg at hc
        have : p * p ≤ (5 + 6 * k) * (5 + 6 * k) := Nat.mul_le_mul hc hc
        omega
      constructor
      · intro hmod
        have := hdiv _ ((Nat.dvd_iff_mod_eq_zero).mpr hmod)
        omega
      · intro hmod
        have := hdiv _ ((Nat.dvd_iff_mod_eq_zero).mpr hmod)
        omega

/-- The upward walk returns the least `is_prime`-accepted value at or above
its start, provided one exists within the fuel window. -/
theorem find_prime_above_spec :
    ∀ fuel n, (∃ m, n ≤ m ∧ m < n + fuel ∧ is_prime m = true) →
      n ≤ find_prime_above n fuel ∧ is_prime (find_prime_above n fuel) = true ∧
        ∀ m, n ≤ m → m < find_prime_above n fuel → is_prime m = false := by
  intro fuel
  induction fuel with
  | zero =>
    intro n hex
    exfalso
    obtain ⟨m, h1, h2, -⟩ := hex
    omega
  | succ f ih =>
    intro n hex
    rw [find_prime_above]
    split
    · rename_i hp
      exact ⟨Nat.le_refl _, hp, fun m h1 h2 => by omega⟩
    · rename_i hp
      have hex2 : ∃ m, n + 1 ≤ m ∧ m < n + 1 + f ∧ is_prime m = true := by
        obtain ⟨m, h1, h2, h3⟩ := hex
        refine ⟨m, ?_, by omega, h3⟩
        rcases Nat.eq_or_lt_of_le h1 with rfl | hlt
        · exact absurd h3 (by simp [hp])
        · omega
      obtain ⟨i1, i2, i3⟩ := ih (n + 1) hex2
      refine ⟨by omega, i2, fun m h1 h2 => ?_⟩
      rcases Nat.eq_or_lt_of_le h1 with rfl | hlt
      · simpa using hp
      · exact i3 m (by omega) h2

/-- The downward walk returns the greatest `is_prime`-accepted value at or
below its start, provided one exists. -/
theorem find_prime_below_spec :
    ∀ n, (∃ m, m ≤ n ∧ is_prime m = true) →
      find_prime_below n ≤ n ∧ is_prime (find_prime_below n) = true ∧
        ∀ m, find_prime_below n < m → m ≤ n → is_prime m = false := by
  intro n
  induction n with
  | zero =>
    intro hex
    exfalso
    obtain ⟨m, h1, h2⟩ := hex
    interval_cases m
    · exact absurd h2 (by decide)
  | succ k ih =>
    intro hex
    rw [find_prime_below]
    split
    · rename_i hp
      exact ⟨Nat.le_refl _, hp, fun m h1 h2 => by omega⟩
    · rename_i hp
      have hex2 : ∃ m, m ≤ k ∧ is_prime m = true := by
        obtain ⟨m, h1, h2⟩ := hex
        refine ⟨m, ?_, h2⟩
        rcases Nat.eq_or_lt_of_le h1 with rfl | hlt
        · exact absurd h2 (by simp [hp])
        · omega
      obtain ⟨i1, i2, i3⟩ := ih hex2
      refine ⟨by omega, i2, fun m h1 h2 => ?_⟩
      rcases Nat.eq_or_lt_of_le h2 with rfl | hlt
      · simpa using hp
      · exact i3 m h1 (by omega)

/-- Primes are accepted by `is_prime`. -/
theorem is_prime_of_prime {p : Nat} (hp : Nat.Prime p) : is_prime p = true :=
  (is_prime_iff p).mpr (Or.inl hp)

/-- `next_prime_size` returns the least `is_prime`-accepted value at or above
`cur_size * 5 / 2` (the truncated `cur_size * 2.5`). -/
theorem next_prime_size_spec (c : Nat) :
    c * 5 / 2 ≤ next_prime_size c ∧ is_prime (next_prime_size c) = true ∧
      ∀ m, c * 5 / 2 ≤ m → m < next_prime_size c → is_prime m = false := by
  rcases Nat.eq_zero_or_pos c with rfl | hc
  · refine ⟨by decide, by decide, ?_⟩
    intro m h1 h2
    have : next_prime_size 0 = 2 := by decide
    rw [this] at h2
    interval_cases m
    · decide
    · decide
  · have hstart : 2 ≤ c * 5 / 2 := by
      have : 5 ≤ c * 5 := by omega
      omega
    obtain ⟨p, hp, hgt, hle⟩ :=
      Nat.exists_prime_lt_and_le_two_mul (c * 5 / 2) (by omega)
    exact find_prime_above_spec (c * 5 / 2 + 2) (c * 5 / 2)
      ⟨p, by omega, by omega, is_prime_of_prime hp⟩

/-- `next_prime_step` returns the greatest `is_prime`-accepted value strictly
below `cur_size` (for the capacities at hand, i.e. `cur_size ≥ 3`). -/
theorem next_prime_step_spec (c : Nat) (hc : 3 ≤ c) :
    next_prime_step c < c ∧ is_prime (next_prime_step c) = true ∧
      ∀ m, next_prime_step c < m → m < c → is_prime m = false := by
  obtain ⟨i1, i2, i3⟩ := find_prime_below_spec (c - 1) ⟨2, by omega, by decide⟩
  exact ⟨by simp only [next_prime_step]; omega, i2,
    fun m h1 h2 => i3 m h1 (by simp only [next_prime_step] at h1; omega)⟩

/-- Claim C6 (amended): the capacity chosen on Growth is the smallest value
at or above `floor(oldSize · 2.5)` accepted by the trial-division test, and
the step modulus is the greatest accepted value below the capacity — where
the test accepts exactly the primes and the squares of primes congruent to
5 mod 6 (so `ceil` is actually `floor`, and the chosen values need not be
prime: `next_prime_size 10 = 25`). -/
theorem C6_sizing_amended :
    (∀ n, is_prime n = true ↔
      (Nat.Prime n ∨ ∃ p, Nat.Prime p ∧ p % 6 = 5 ∧ n = p * p)) ∧
    (∀ c, c * 5 / 2 ≤ next_prime_size c ∧ is_prime (next_prime_size c) = true ∧
      ∀ m, c * 5 / 2 ≤ m → m < next_prime_size c → is_prime m = false) ∧
    (∀ c, 3 ≤ c →
      next_prime_step c < c ∧ is_prime (next_prime_step c) = true ∧
        ∀ m, next_prime_step c < m → m < c → is_prime m = false) :=
  ⟨is_prime_iff, next_prime_size_spec, next_prime_step_spec⟩

/-- Witness for the amended claim C6, at the default geometry: the capacity
grown from 547 is the least accepted value at or above 1367, the step
modulus below 547 is accepted and maximal, and `is_prime 1367` is settled by
the characterization. -/
theorem C6_sizing_amended_witness :
    (is_prime 1367 = true ↔
      (Nat.Prime 1367 ∨ ∃ p, Nat.Prime p ∧ p % 6 = 5 ∧ 1367 = p * p)) ∧
    (547 * 5 / 2 ≤ next_prime_size 547 ∧ is_prime (next_prime_size 547) = true) ∧
    next_prime_step 547 < 547 :=
  ⟨C6_sizing_amended.1 1367,
   ⟨(C6_sizing_amended.2.1 547).1, (C6_sizing_amended.2.1 547).2.1⟩,
   (C6_sizing_amended.2.2 547 (by decide)).1⟩

/-! ## Weight accounting (claim C2) -/

/-- Reading beside the updated index. -/
theorem getD_set_ne (l : List Entry) (i j : Nat) (e : Entry) (h : i ≠ j) :
    (l.set i e).getD j emptyEntry = l.getD j emptyEntry := by
  simp [List.getD_eq_getElem?_getD, List.getElem?_set_ne h]

/-- Reading the updated index. -/
theorem getD_set_self (l : List Entry) (i : Nat) (e : Entry) (h : i < l.length) :
    (l.set i e).getD i emptyEntry = e := by
  simp [List.getD_eq_getElem?_getD, List.getElem?_set_self h]

/-- Exchange law for a pointwise sum under a single-slot update. -/
theorem sum_map_set (f : Entry → Nat) :
    ∀ (l : List Entry) (i : Nat) (e : Entry), i < l.length →
      ((l.set i e).map f).sum + f (l.getD i emptyEntry) = (l.map f).sum + f e := by
  intro l
  induction l with
  | nil => intro i e h; simp at h
  | cons a l ih =>
    intro i e h
    cases i with
    | zero => simp [List.set]; omega
    | succ i2 =>
      simp only [List.set, List.map_cons, List.sum_cons, List.getD_cons_succ]
      have := ih i2 e (by simpa using h)
      omega

/-- Each slot's contribution is bounded by the total. -/
theorem le_sum_map (f : Entry → Nat) :
    ∀ (l : List Entry) (i : Nat), i < l.length → f (l.getD i emptyEntry) ≤ (l.map f).sum := by
  intro l
  induction l with
  | nil => intro i h; simp at h
  | cons a l ih =>
    intro i h
    cases i with
    | zero => simp
    | succ i2 =>
      simp only [List.getD_cons_succ, List.map_cons, List.sum_cons]
      have := ih i2 (by simpa using h)
      omega

/-- Weight of a live entry. -/
theorem weightOf_alive {e : Entry} (h : e.alive = true) : weightOf e = e.probepos := by
  simp only [weightOf, h]
  rfl

/-- Weight of a dead slot. -/
theorem weightOf_dead {e : Entry} (h : e.alive = false) : weightOf e = 0 := by
  simp only [weightOf, h]
  rfl

/-- The loop invariant for weight accounting: on entry, `totalweight`
exceeds the sum of live probe positions by exactly the candidate's current
`probepos` (each iteration increments both in lockstep, swaps exchange the
candidate's term with a slot's, and the upsert/recycle exits subtract back
the excess); on any exit the equality `totalweight = sumProbe` holds. -/
theorem insert_loop_weight :
    ∀ fuel (t : Table) (r : Entry) (step : Nat) (t2 : Table) (c : Int),
      t.slots.length = t.size → 0 < t.size → r.alive = true →
      t.totalweight = sumProbe t.slots + r.probepos →
      insert_loop t r step fuel = some (t2, c) →
      t2.totalweight = sumProbe t2.slots ∧ t2.slots.length = t2.size := by
  intro fuel
  induction fuel with
  | zero => intro t r step t2 c _ _ _ _ h; simp [insert_loop] at h
  | succ n ih =>
    intro t r step t2 c hlen hsz halive hinv h
    have hidx : (r.hash + (r.probepos + 1) * step) % t.size < t.slots.length := by
      rw [hlen]; exact Nat.mod_lt _ hsz
    simp only [insert_loop] at h
    split at h
    · rename_i hdead
      have hsum1 := sum_map_set weightOf t.slots
        ((r.hash + (r.probepos + 1) * step) % t.size)
        { r with probepos := r.probepos + 1 } hidx
      rw [weightOf_dead hdead,
        weightOf_alive (e := { r with probepos := r.probepos + 1 }) halive] at hsum1
      split at h
      · rename_i hkey
        split at h
        · rename_i pos hpos
          simp only [Option.some.injEq, Prod.mk.injEq] at h
          obtain ⟨h1, -⟩ := h
          subst h1
          have hs := internal_search_sound (t := { t with totalweight := t.totalweight + 1 })
            hsz hpos
          have hne : (r.hash + (r.probepos + 1) * step) % t.size ≠ pos := by
            intro heq
            rw [← heq] at hs
            rw [hs.2.1] at hdead
            exact Bool.noConfusion hdead
          have hgetpos : (t.slots.set ((r.hash + (r.probepos + 1) * step) % t.size)
              { r with probepos := r.probepos + 1 }).getD pos emptyEntry =
              t.slots.getD pos emptyEntry :=
            getD_set_ne _ _ _ _ hne
          have halivepos : (t.slots.getD pos emptyEntry).alive = true := hs.2.1
          have hlen1 : pos < (t.slots.set ((r.hash + (r.probepos + 1) * step) % t.size)
              { r with probepos := r.probepos + 1 }).length := by
            rw [List.length_set, hlen]
            exact hs.1
          refine ⟨?_, ?_⟩
          · show t.totalweight + 1 -
                ((t.slots.set ((r.hash + (r.probepos + 1) * step) % t.size)
                  { r with probepos := r.probepos + 1 }).getD pos emptyEntry).probepos =
              sumProbe ((t.slots.set ((r.hash + (r.probepos + 1) * step) % t.size)
                  { r with probepos := r.probepos + 1 }).set pos
                { (t.slots.set ((r.hash + (r.probepos + 1) * step) % t.size)
                    { r with probepos := r.probepos + 1 }).getD pos emptyEntry
                  with alive := false })
            rw [hgetpos]
            have hsum2 := sum_map_set weightOf
              (t.slots.set ((r.hash + (r.probepos + 1) * step) % t.size)
                { r with probepos := r.probepos + 1 })
              pos
              { t.slots.getD pos emptyEntry with alive := false }
              hlen1
            rw [hgetpos, weightOf_alive halivepos,
              weightOf_dead (e := { t.slots.getD pos emptyEntry with alive := false }) rfl] at hsum2
            have hle := le_sum_map weightOf
              (t.slots.set ((r.hash + (r.probepos + 1) * step) % t.size)
                { r with probepos := r.probepos + 1 })
              pos hlen1
            rw [hgetpos, weightOf_alive halivepos] at hle
            simp only [sumProbe] at hinv hsum1 hsum2 hle ⊢
            omega
          · show _ = t.size
            simp only [List.length_set]
            exact hlen
        · rename_i hpos
          simp only [Option.some.injEq, Prod.mk.injEq] at h
          obtain ⟨h1, -⟩ := h
          subst h1
          refine ⟨?_, ?_⟩
          · show t.totalweight + 1 = sumProbe (t.slots.set
              ((r.hash + (r.probepos + 1) * step) % t.size)
              { r with probepos := r.probepos + 1 })
            simp only [sumProbe] at hinv hsum1 ⊢
            omega
          · show _ = t.size
            simp only [List.length_set]
            exact hlen
      · rename_i hkey
        simp only [Option.some.injEq, Prod.mk.injEq] at h
        obtain ⟨h1, -⟩ := h
        subst h1
        refine ⟨?_, ?_⟩
        · show t.totalweight + 1 = sumProbe (t.slots.set
            ((r.hash + (r.probepos + 1) * step) % t.size)
            { r with probepos := r.probepos + 1 })
          simp only [sumProbe] at hinv hsum1 ⊢
          omega
        · show _ = t.size
          simp only [List.length_set]
          exact hlen
    · rename_i hlive
      have halive2 : (t.slots.getD ((r.hash + (r.probepos + 1) * step) % t.size) emptyEntry).alive = true := by
        revert hlive
        cases (t.slots.getD ((r.hash + (r.probepos + 1) * step) % t.size) emptyEntry).alive
        · intro hl; exact absurd rfl hl
        · intro _; rfl
      split at h
      · rename_i hswap
        have hsum1 := sum_map_set weightOf t.slots
          ((r.hash + (r.probepos + 1) * step) % t.size)
          { r with probepos := r.probepos + 1 } hidx
        rw [weightOf_alive halive2,
          weightOf_alive (e := { r with probepos := r.probepos + 1 }) halive] at hsum1
        have hle := le_sum_map weightOf t.slots
          ((r.hash + (r.probepos + 1) * step) % t.size) hidx
        rw [weightOf_alive halive2] at hle
        have h2 := ih
          { t with totalweight := t.totalweight + 1,
                   maxprobe := max (r.probepos + 1) t.maxprobe,
                   slots := t.slots.set ((r.hash + (r.probepos + 1) * step) % t.size)
                     { r with probepos := r.probepos + 1 } }
          (t.slots.getD ((r.hash + (r.probepos + 1) * step) % t.size) emptyEntry)
          (t.step_prime -
            (t.slots.getD ((r.hash + (r.probepos + 1) * step) % t.size) emptyEntry).hash %
              t.step_prime)
          t2 c
          (show (t.slots.set ((r.hash + (r.probepos + 1) * step) % t.size)
              { r with probepos := r.probepos + 1 }).length = t.size by
            rw [List.length_set]; exact hlen)
          hsz halive2
          (show t.totalweight + 1 = sumProbe (t.slots.set
              ((r.hash + (r.probepos + 1) * step) % t.size)
              { r with probepos := r.probepos + 1 }) +
            (t.slots.getD ((r.hash + (r.probepos + 1) * step) % t.size) emptyEntry).probepos by
            simp only [sumProbe] at hinv hsum1 hle ⊢
            omega)
          h
        exact h2
      · split at h
        · rename_i hups
          simp only [Option.some.injEq, Prod.mk.injEq] at h
          obtain ⟨h1, -⟩ := h
          subst h1
          have hsum1 := sum_map_set weightOf t.slots
            ((r.hash + (r.probepos + 1) * step) % t.size)
            { (t.slots.getD ((r.hash + (r.probepos + 1) * step) % t.size) emptyEntry) with
              data := r.data } hidx
          rw [weightOf_alive halive2,
            weightOf_alive
              (e := { (t.slots.getD ((r.hash + (r.probepos + 1) * step) % t.size) emptyEntry) with
                data := r.data }) halive2] at hsum1
          refine ⟨?_, ?_⟩
          · show t.totalweight + 1 - (r.probepos + 1) = sumProbe (t.slots.set
              ((r.hash + (r.probepos + 1) * step) % t.size)
              { (t.slots.getD ((r.hash + (r.probepos + 1) * step) % t.size) emptyEntry) with
                data := r.data })
            have hpp : (t.slots.getD ((r.hash + (r.probepos + 1) * step) % t.size) emptyEntry).probepos =
                r.probepos + 1 := hups.1
            simp only [sumProbe] at hinv hsum1 ⊢
            omega
          · show _ = t.size
            simp only [List.length_set]
            exact hlen
        · have h2 := ih { t with totalweight := t.totalweight + 1 }
            { r with probepos := r.probepos + 1 } step t2 c hlen hsz
            (show ({ r with probepos := r.probepos + 1 } : Entry).alive = true from halive)
            (show t.totalweight + 1 = sumProbe t.slots + (r.probepos + 1) by omega)
            h
          exact h2

/-- The zeroed slot array carries no weight. -/
theorem sumProbe_replicate (n : Nat) : sumProbe (List.replicate n emptyEntry) = 0 := by
  simp only [sumProbe, List.map_replicate]
  rw [show weightOf emptyEntry = 0 from rfl]
  simp

/-- The weight bundle: the accounting equality plus the structural facts it
needs to propagate (slot count matches `size`, `size` positive). -/
def WeightWF (t : Table) : Prop :=
  t.totalweight = sumProbe t.slots ∧ t.slots.length = t.size ∧ 0 < t.size

/-- `is_prime` only accepts values at least 2. -/
theorem is_prime_two_le {n : Nat} (h : is_prime n = true) : 2 ≤ n := by
  by_contra hc
  push_neg at hc
  interval_cases n
  · exact absurd h (by decide)
  · exact absurd h (by decide)

/-- `insert_basic` preserves the weight bundle. -/
theorem insert_basic_weight {t : Table} {key : List Nat} {keylen data : Nat}
    {t2 : Table} {c : Int} (hwf : WeightWF t)
    (h : insert_basic t key keylen data = some (t2, c)) : WeightWF t2 := by
  obtain ⟨hw, hlen, hsz⟩ := hwf
  simp only [insert_basic] at h
  split at h
  · simp only [Option.some.injEq, Prod.mk.injEq] at h
    obtain ⟨h1, -⟩ := h
    subst h1
    exact ⟨hw, hlen, hsz⟩
  · have hg := insert_loop_geometry _ _ _ _ _ _ h
    have h2 := insert_loop_weight _ _ _ _ _ _ hlen hsz rfl
      (by show t.totalweight = sumProbe t.slots + 0; omega) h
    exact ⟨h2.1, h2.2, by rw [hg.1]; exact hsz⟩

/-- The replay fold of `grow_table` preserves the weight bundle. -/
theorem replay_weight (l : List Entry) :
    ∀ acc : Table, WeightWF acc →
      WeightWF (l.foldl (fun acc e =>
        if e.alive then
          match insert_basic acc (e.key.getD []) e.keylen e.data with
          | some (t2, _) => t2
          | none => acc
        else acc) acc) := by
  induction l with
  | nil => intro acc h; exact h
  | cons e l ih =>
    intro acc hacc
    simp only [List.foldl_cons]
    apply ih
    split
    · rcases hb : insert_basic acc (e.key.getD []) e.keylen e.data with - | ⟨t2, c⟩
      · exact hacc
      · simp only [hb]
        exact insert_basic_weight hacc hb
    · exact hacc

/-- A successful `grow_table` yields a table satisfying the weight bundle
(counters reset, live entries replayed through insertion). -/
theorem grow_table_weight {ok : Bool} {t t2 : Table}
    (h : grow_table ok t = some t2) : WeightWF t2 := by
  simp only [grow_table] at h
  split at h
  · exact absurd h (by simp)
  · simp only [Option.some.injEq] at h
    subst h
    apply replay_weight
    refine ⟨?_, ?_, ?_⟩
    · show (0 : Nat) = sumProbe (List.replicate (next_prime_size t.size) emptyEntry)
      rw [sumProbe_replicate]
    · show (List.replicate (next_prime_size t.size) emptyEntry).length = next_prime_size t.size
      exact List.length_replicate _ _
    · show 0 < next_prime_size t.size
      have := is_prime_two_le (next_prime_size_spec t.size).2.1
      omega

/-- `table_insert` preserves the weight bundle for any allocation outcome. -/
theorem table_insert_weight {ok : Bool} {t : Table} {key : List Nat}
    {keylen data : Nat} {t2 : Table} {c : Int} (hwf : WeightWF t)
    (h : table_insert ok t key keylen data = some (t2, c)) : WeightWF t2 := by
  obtain ⟨hw, hlen, hsz⟩ := hwf
  simp only [table_insert] at h
  split at h
  · simp only [Option.some.injEq, Prod.mk.injEq] at h
    obtain ⟨h1, -⟩ := h
    subst h1
    exact ⟨hw, hlen, hsz⟩
  · have hstart : WeightWF (if 19 * t.size < 20 * t.elements then (grow_table ok t).getD t else t) := by
      split
      · rcases hg : grow_table ok t with - | G
        · simpa using ⟨hw, hlen, hsz⟩
        · simpa using grow_table_weight hg
      · exact ⟨hw, hlen, hsz⟩
    obtain ⟨hw1, hlen1, hsz1⟩ := hstart
    have hg := insert_loop_geometry _ _ _ _ _ _ h
    have h2 := insert_loop_weight _ _ _ _ _ _ hlen1 hsz1 rfl
      (by show _ = _ + 0; omega) h
    exact ⟨h2.1, h2.2, by rw [hg.1]; exact hsz1⟩

/-- `table_remove` preserves the weight bundle. -/
theorem table_remove_weight {t : Table} {key : List Nat} {keylen : Nat}
    (hwf : WeightWF t) : WeightWF (table_remove t key keylen).1 := by
  obtain ⟨hw, hlen, hsz⟩ := hwf
  simp only [table_remove]
  split
  · rename_i pos hpos
    split
    · rename_i hposgt
      have hs := internal_search_sound hsz hpos
      have hplen : pos < t.slots.length := by rw [hlen]; exact hs.1
      have hsum := sum_map_set weightOf t.slots pos
        { t.slots.getD pos emptyEntry with alive := false } hplen
      rw [weightOf_alive hs.2.1,
        weightOf_dead (e := { t.slots.getD pos emptyEntry with alive := false }) rfl] at hsum
      have hle := le_sum_map weightOf t.slots pos hplen
      rw [weightOf_alive hs.2.1] at hle
      refine ⟨?_, ?_, hsz⟩
      · show t.totalweight - (t.slots.getD pos emptyEntry).probepos = _
        simp only [sumProbe] at hw hsum hle ⊢
        omega
      · show _ = t.size
        simp only [List.length_set]
        exact hlen
    · exact ⟨hw, hlen, hsz⟩
  · exact ⟨hw, hlen, hsz⟩

/-- A fresh table satisfies the weight bundle. -/
theorem table_new_weight (h : Option (List Nat → Nat → Nat))
    (c : Option (List Nat → List Nat → Nat → Int)) : WeightWF (table_new h c) := by
  refine ⟨?_, ?_, ?_⟩
  · show (0 : Nat) = sumProbe (List.replicate 547 emptyEntry)
    rw [sumProbe_replicate]
  · show (List.replicate 547 emptyEntry).length = 547
    exact List.length_replicate _ _
  · show (0 : Nat) < 547
    omega

/-- Every reachable table satisfies the weight bundle. -/
theorem reachable_weightWF : ∀ t : Table, Reachable t → WeightWF t := by
  intro t h
  induction h with
  | new h c => exact table_new_weight h c
  | insert t ok key keylen data t2 c ht hins ih => exact table_insert_weight ih hins
  | remove t key keylen ht ih => exact table_remove_weight ih
  | grow t ok t2 ht hg ih => exact grow_table_weight hg

/-! ## Claim C2 -/

/-- Claim C2 (confirmed): weight accounting.  In every table state reachable
by any sequence of `table_insert` (with any allocation outcomes),
`table_remove`, and growth operations from a fresh table, `totalweight`
equals the sum of `probepos` over exactly the live entries — the
per-iteration increments of the probe loop (including iterations that swap),
the subtractions on upsert, tombstone recycling and removal, and the
reset-and-replay of Growth all preserve the equality. -/
theorem C2_weight_accounting :
    ∀ t : Table, Reachable t → t.totalweight = sumProbe t.slots :=
  fun t h => (reachable_weightWF t h).1

/-- Result of inserting key `[7]` into the fresh table `tC1`. -/
def tC1res : Table := ((table_insert true tC1 [7] 1 42).getD (tC1, 0)).1

/-- Witness for claim C2: the table reached from a fresh table by one insert
satisfies the weight equality. -/
theorem C2_weight_accounting_witness : tC1res.totalweight = sumProbe tC1res.slots :=
  C2_weight_accounting tC1res
    (Reachable.insert tC1 true [7] 1 42 tC1res 0 (Reachable.new (some hC1) none) (by rfl))

/-! ## Termination of the probe/displacement loop (claim C10)

The loop terminates because the set of non-alive slots is fixed during the
loop (swaps only touch live slots, and probing a non-alive slot ends the
loop), every record's probe sequence visits all slots within `size` steps
(`size` is prime and each derived step is a nonzero value below `size`), and
the potential `Φ = μ(candidate) + Σ_{live slots} μ(slot)` — where `μ(h, p)`
is the distance along the probe sequence of hash `h` from position `p` to
the next non-alive slot — strictly decreases by 1 on every iteration:
a plain probe decrements the candidate's `μ`; a swap additionally exchanges
the candidate's term with the slot's. -/

/-- Probe index of hash `h` at position `j` under the derived step. -/
def probeIdx (size sp h j : Nat) : Nat :=
  (h + j * (sp - h % sp)) % size

/-- Distance (number of loop iterations) from probe position `p` to the
first non-alive slot of the sequence of hash `h`, fuel-bounded. -/
def muF (slots : List Entry) (size sp h : Nat) : Nat → Nat → Nat
  | _, 0 => 1
  | p, fuel + 1 =>
    if (slots.getD (probeIdx size sp h (p + 1)) emptyEntry).alive
    then muF slots size sp h (p + 1) fuel + 1
    else 1

/-- A slot's contribution to the termination potential. -/
def muEntry (slots : List Entry) (size sp : Nat) (e : Entry) : Nat :=
  if e.alive then muF slots size sp e.hash e.probepos size else 0

/-- The aggregate potential of the seated records. -/
def sumMu (slots : List Entry) (size sp : Nat) : Nat :=
  (slots.map (muEntry slots size sp)).sum

/-- `μ` is always positive. -/
theorem muF_pos (slots : List Entry) (size sp h : Nat) :
    ∀ fuel p, 1 ≤ muF slots size sp h p fuel := by
  intro fuel
  cases fuel with
  | zero => intro p; exact Nat.le_refl 1
  | succ f =>
    intro p
    rw [muF]
    split
    · omega
    · omega

/-- `μ` depends on the slot array only through its aliveness pattern. -/
theorem muF_congr {slots slots2 : List Entry} {size sp : Nat}
    (hpat : ∀ i, (slots2.getD i emptyEntry).alive = (slots.getD i emptyEntry).alive) :
    ∀ fuel h p, muF slots2 size sp h p fuel = muF slots size sp h p fuel := by
  intro fuel
  induction fuel with
  | zero => intro h p; rfl
  | succ f ih =>
    intro h p
    rw [muF, muF, hpat, ih]

/-- Likewise for a slot's potential contribution. -/
theorem muEntry_congr {slots slots2 : List Entry} {size sp : Nat}
    (hpat : ∀ i, (slots2.getD i emptyEntry).alive = (slots.getD i emptyEntry).alive) :
    ∀ e, muEntry slots2 size sp e = muEntry slots size sp e := by
  intro e
  rw [muEntry, muEntry, muF_congr hpat]

/-- `μ` computes the distance to the first dead probe, for any sufficient
fuel. -/
theorem muF_eq_dist {slots : List Entry} {size sp h : Nat} :
    ∀ fuel p k,
      (slots.getD (probeIdx size sp h (p + 1 + k)) emptyEntry).alive = false →
      (∀ j, j < k → (slots.getD (probeIdx size sp h (p + 1 + j)) emptyEntry).alive = true) →
      k < fuel →
      muF slots size sp h p fuel = k + 1 := by
  intro fuel
  induction fuel with
  | zero => intro p k _ _ hk; omega
  | succ f ih =>
    intro p k hdead hmin hk
    rw [muF]
    cases k with
    | zero =>
      have hdead2 : (slots.getD (probeIdx size sp h (p + 1)) emptyEntry).alive = false := hdead
      rw [if_neg (by rw [hdead2]; exact fun hc => Bool.noConfusion hc)]
    | succ k2 =>
      have halive1 : (slots.getD (probeIdx size sp h (p + 1)) emptyEntry).alive = true :=
        hmin 0 (by omega)
      rw [if_pos halive1]
      have hdead2 : (slots.getD (probeIdx size sp h (p + 1 + 1 + k2)) emptyEntry).alive = false := by
        have he : p + 1 + 1 + k2 = p + 1 + (k2 + 1) := by omega
        rw [he]
        exact hdead
      have hmin2 : ∀ j, j < k2 →
          (slots.getD (probeIdx size sp h (p + 1 + 1 + j)) emptyEntry).alive = true := by
        intro j hj
        have he : p + 1 + 1 + j = p + 1 + (j + 1) := by omega
        rw [he]
        exact hmin (j + 1) (by omega)
      rw [ih (p + 1) k2 hdead2 hmin2 (by omega)]

/-- The derived step is nonzero and below `size`. -/
theorem step_pos_lt {size sp h : Nat} (hsp0 : 0 < sp) (hsp : sp < size) :
    0 < sp - h % sp ∧ sp - h % sp < size := by
  have := Nat.mod_lt h hsp0
  omega

/-- Coverage: with `size` prime and the derived step in `(0, size)`, every
window of `size` consecutive probe positions of any hash visits every slot
index; in particular it visits any given index `d`. -/
theorem probe_covers {size sp : Nat} (hprime : Nat.Prime size)
    (hsp0 : 0 < sp) (hsp : sp < size) (h : Nat) :
    ∀ d, d < size → ∀ p, ∃ k, k < size ∧ probeIdx size sp h (p + 1 + k) = d := by
  intro d hd p
  obtain ⟨hs0, hslt⟩ := step_pos_lt (h := h) hsp0 hsp
  have hcop : Nat.Coprime size (sp - h % sp) :=
    (Nat.Prime.coprime_iff_not_dvd hprime).mpr
      (fun hdvd => absurd (Nat.le_of_dvd hs0 hdvd) (by omega))
  have hkey : ∀ k1 k2 : Nat, k1 ≤ k2 → k2 - k1 < size →
      probeIdx size sp h (p + 1 + k1) = probeIdx size sp h (p + 1 + k2) → k1 = k2 := by
    intro k1 k2 hle hk2 heq
    have hmod : (h + (p + 1 + k1) * (sp - h % sp)) ≡
        (h + (p + 1 + k2) * (sp - h % sp)) [MOD size] := heq
    have h2 : (p + 1 + k1) * (sp - h % sp) ≡
        (p + 1 + k2) * (sp - h % sp) [MOD size] :=
      Nat.ModEq.add_left_cancel' h hmod
    have hsplit : (p + 1 + k2) * (sp - h % sp) =
        (p + 1 + k1) * (sp - h % sp) + (k2 - k1) * (sp - h % sp) := by
      rw [← Nat.add_mul]
      congr 1
      omega
    rw [hsplit] at h2
    have h2b : (p + 1 + k1) * (sp - h % sp) + 0 ≡
        (p + 1 + k1) * (sp - h % sp) + (k2 - k1) * (sp - h % sp) [MOD size] := by
      simpa using h2
    have h3 : (0 : Nat) ≡ (k2 - k1) * (sp - h % sp) [MOD size] :=
      Nat.ModEq.add_left_cancel' _ h2b
    have hdvd : size ∣ (k2 - k1) * (sp - h % sp) :=
      (Nat.modEq_zero_iff_dvd).mp h3.symm
    have hdvd2 : size ∣ (k2 - k1) := hcop.dvd_of_dvd_mul_right hdvd
    rcases Nat.eq_zero_or_pos (k2 - k1) with hz | hpos
    · omega
    · exact absurd (Nat.le_of_dvd hpos hdvd2) (by omega)
  have hinj : Function.Injective
      (fun k : Fin size =>
        (⟨probeIdx size sp h (p + 1 + k.val), Nat.mod_lt _ hprime.pos⟩ : Fin size)) := by
    intro k1 k2 heq
    have hval : probeIdx size sp h (p + 1 + k1.val) = probeIdx size sp h (p + 1 + k2.val) :=
      congrArg Fin.val heq
    rcases Nat.le_total k1.val k2.val with hle | hle
    · exact Fin.ext (hkey k1.val k2.val hle (by omega) hval)
    · exact Fin.ext ((hkey k2.val k1.val hle (by omega) hval.symm).symm)
  have hsurj := Finite.injective_iff_surjective.mp hinj
  obtain ⟨k, hk⟩ := hsurj ⟨d, hd⟩
  exact ⟨k.val, k.isLt, congrArg Fin.val hk⟩

/-- Specification of `μ` at fuel `size` under coverage: it is `k + 1` for
the minimal `k` reaching a dead slot, hence lies in `[1, size]`, the probe
at distance `μ` is dead, and every strictly earlier probe is alive. -/
theorem mu_spec {slots : List Entry} {size sp : Nat} (hprime : Nat.Prime size)
    (hsp0 : 0 < sp) (hsp : sp < size)
    (hdead : ∃ dd, dd < size ∧ (slots.getD dd emptyEntry).alive = false)
    (h p : Nat) :
    ∃ k, k < size ∧ muF slots size sp h p size = k + 1 ∧
      (slots.getD (probeIdx size sp h (p + 1 + k)) emptyEntry).alive = false ∧
      ∀ j, j < k → (slots.getD (probeIdx size sp h (p + 1 + j)) emptyEntry).alive = true := by
  obtain ⟨dd, hddlt, hddead⟩ := hdead
  obtain ⟨k1, hk1, hk1eq⟩ := probe_covers hprime hsp0 hsp h dd hddlt p
  have hex : ∃ k, (slots.getD (probeIdx size sp h (p + 1 + k)) emptyEntry).alive = false :=
    ⟨k1, by rw [hk1eq]; exact hddead⟩
  have hfound := Nat.find_spec hex
  have hminle : Nat.find hex ≤ k1 := Nat.find_min' hex (by rw [hk1eq]; exact hddead)
  refine ⟨Nat.find hex, by omega, ?_, hfound, ?_⟩
  · exact muF_eq_dist size p (Nat.find hex) hfound
      (fun j hj => by
        have := Nat.find_min hex hj
        revert this
        cases (slots.getD (probeIdx size sp h (p + 1 + j)) emptyEntry).alive
        · intro hc; exact absurd rfl hc
        · intro _; rfl)
      (by omega)
  · intro j hj
    have := Nat.find_min hex hj
    revert this
    cases (slots.getD (probeIdx size sp h (p + 1 + j)) emptyEntry).alive
    · intro hc; exact absurd rfl hc
    · intro _; rfl

/-- Bounds for `μ` under coverage. -/
theorem mu_bounds {slots : List Entry} {size sp : Nat} (hprime : Nat.Prime size)
    (hsp0 : 0 < sp) (hsp : sp < size)
    (hdead : ∃ dd, dd < size ∧ (slots.getD dd emptyEntry).alive = false)
    (h p : Nat) :
    1 ≤ muF slots size sp h p size ∧ muF slots size sp h p size ≤ size := by
  obtain ⟨k, hklt, hkeq, -, -⟩ := mu_spec hprime hsp0 hsp hdead h p
  omega

/-- Decrement: probing a live slot shrinks `μ` by exactly one. -/
theorem mu_dec {slots : List Entry} {size sp : Nat} (hprime : Nat.Prime size)
    (hsp0 : 0 < sp) (hsp : sp < size)
    (hdead : ∃ dd, dd < size ∧ (slots.getD dd emptyEntry).alive = false)
    (h p : Nat)
    (halive : (slots.getD (probeIdx size sp h (p + 1)) emptyEntry).alive = true) :
    muF slots size sp h p size = muF slots size sp h (p + 1) size + 1 := by
  obtain ⟨k, hklt, hkeq, hkdead, hkmin⟩ := mu_spec hprime hsp0 hsp hdead h p
  have hk1 : 1 ≤ k := by
    rcases Nat.eq_zero_or_pos k with rfl | h1
    · have hd2 : (slots.getD (probeIdx size sp h (p + 1)) emptyEntry).alive = false := hkdead
      rw [halive] at hd2
      exact absurd hd2 (by simp)
    · exact h1
  have hdec := muF_eq_dist size (p + 1) (k - 1)
    (by
      have he : p + 1 + 1 + (k - 1) = p + 1 + k := by omega
      rw [he]
      exact hkdead)
    (by
      intro j hj
      have he : p + 1 + 1 + j = p + 1 + (j + 1) := by omega
      rw [he]
      exact hkmin (j + 1) (by omega))
    (by omega)
  rw [hkeq, hdec]
  omega

/-- A pointwise bound on a mapped sum. -/
theorem sum_map_le (f : Entry → Nat) (B : Nat) :
    ∀ l : List Entry, (∀ e ∈ l, f e ≤ B) → (l.map f).sum ≤ l.length * B := by
  intro l
  induction l with
  | nil => intro _; simp
  | cons a l ih =>
    intro hb
    simp only [List.map_cons, List.sum_cons, List.length_cons]
    have h1 := hb a (by simp)
    have h2 := ih (fun e he => hb e (by simp [he]))
    have : (l.length + 1) * B = l.length * B + B := by ring
    omega

/-- Updating a slot with an entry of the same aliveness preserves the
aliveness pattern. -/
theorem alive_pattern_set {slots : List Entry} {idx : Nat} {enew : Entry}
    (hidx : idx < slots.length)
    (hsame : enew.alive = (slots.getD idx emptyEntry).alive) :
    ∀ i, ((slots.set idx enew).getD i emptyEntry).alive =
      (slots.getD i emptyEntry).alive := by
  intro i
  by_cases hi : idx = i
  · subst hi
    rw [getD_set_self _ _ _ hidx, hsame]
  · rw [getD_set_ne _ _ _ _ hi]

/-- Termination of the probe/displacement loop: if the table geometry is
well formed (`size` prime, derived steps nonzero and below `size`, a
non-alive slot present) and the fuel dominates the potential
`Φ = μ(candidate) + Σ μ(slots)`, the loop returns a result.  Every
iteration either ends at a non-alive slot (placement or recycling), ends by
upsert, or decreases `Φ` by exactly one. -/
theorem insert_loop_some :
    ∀ fuel (t : Table) (r : Entry),
      t.slots.length = t.size → Nat.Prime t.size →
      0 < t.step_prime → t.step_prime < t.size →
      (∃ dd, dd < t.size ∧ (t.slots.getD dd emptyEntry).alive = false) →
      r.alive = true →
      muF t.slots t.size t.step_prime r.hash r.probepos t.size +
        sumMu t.slots t.size t.step_prime ≤ fuel →
      insert_loop t r (t.step_prime - r.hash % t.step_prime) fuel ≠ none := by
  intro fuel
  induction fuel with
  | zero =>
    intro t r hlen hprime hsp0 hsp hdead halive hphi
    have := muF_pos t.slots t.size t.step_prime r.hash t.size r.probepos
    omega
  | succ n ih =>
    intro t r hlen hprime hsp0 hsp hdead halive hphi hnone
    simp only [insert_loop] at hnone
    split at hnone
    · split at hnone
      · split at hnone
        · exact Option.noConfusion hnone
        · exact Option.noConfusion hnone
      · exact Option.noConfusion hnone
    · rename_i hlive
      have halive2 : (t.slots.getD
          (probeIdx t.size t.step_prime r.hash (r.probepos + 1)) emptyEntry).alive = true := by
        revert hlive
        show ¬((t.slots.getD (probeIdx t.size t.step_prime r.hash (r.probepos + 1))
          emptyEntry).alive = false) → _
        cases (t.slots.getD (probeIdx t.size t.step_prime r.hash (r.probepos + 1))
          emptyEntry).alive
        · intro hl; exact absurd rfl hl
        · intro _; rfl
      have hidxlt : probeIdx t.size t.step_prime r.hash (r.probepos + 1) < t.slots.length := by
        rw [hlen]
        exact Nat.mod_lt _ hprime.pos
      have hdec := mu_dec hprime hsp0 hsp hdead r.hash r.probepos halive2
      split at hnone
      · rename_i hswap
        -- Robin-Hood swap: the occupant becomes the candidate.
        have hpat := @alive_pattern_set t.slots
          (probeIdx t.size t.step_prime r.hash (r.probepos + 1))
          { r with probepos := r.probepos + 1 }
          hidxlt (by
            show r.alive = _
            rw [halive, halive2])
        have hS2 := sum_map_set (muEntry t.slots t.size t.step_prime) t.slots
          (probeIdx t.size t.step_prime r.hash (r.probepos + 1))
          { r with probepos := r.probepos + 1 } hidxlt
        have hBle := le_sum_map (muEntry t.slots t.size t.step_prime) t.slots
          (probeIdx t.size t.step_prime r.hash (r.probepos + 1)) hidxlt
        have hBeq : muEntry t.slots t.size t.step_prime
            (t.slots.getD (probeIdx t.size t.step_prime r.hash (r.probepos + 1)) emptyEntry) =
            muF t.slots t.size t.step_prime
              (t.slots.getD (probeIdx t.size t.step_prime r.hash (r.probepos + 1)) emptyEntry).hash
              (t.slots.getD (probeIdx t.size t.step_prime r.hash (r.probepos + 1)) emptyEntry).probepos
              t.size := by
          rw [muEntry, if_pos halive2]
        have hAeq : muEntry t.slots t.size t.step_prime { r with probepos := r.probepos + 1 } =
            muF t.slots t.size t.step_prime r.hash (r.probepos + 1) t.size := by
          rw [muEntry]
          exact if_pos halive
        have hcongr : muEntry ((t.slots.set
            (probeIdx t.size t.step_prime r.hash (r.probepos + 1))
            { r with probepos := r.probepos + 1 })) t.size t.step_prime =
            muEntry t.slots t.size t.step_prime :=
          funext (muEntry_congr hpat)
        refine ih
          { t with totalweight := t.totalweight + 1,
                   maxprobe := max (r.probepos + 1) t.maxprobe,
                   slots := t.slots.set
                     (probeIdx t.size t.step_prime r.hash (r.probepos + 1))
                     { r with probepos := r.probepos + 1 } }
          (t.slots.getD (probeIdx t.size t.step_prime r.hash (r.probepos + 1)) emptyEntry)
          (by
            show (t.slots.set _ _).length = t.size
            rw [List.length_set]
            exact hlen)
          hprime hsp0 hsp
          ?_ halive2 ?_ ?_
        · obtain ⟨dd, hddlt, hddead⟩ := hdead
          exact ⟨dd, hddlt, by rw [hpat dd]; exact hddead⟩
        · show muF _ t.size t.step_prime _ _ t.size + sumMu _ t.size t.step_prime ≤ n
          rw [muF_congr hpat]
          show _ + sumMu (t.slots.set _ _) t.size t.step_prime ≤ n
          rw [sumMu, hcongr]
          rw [hBeq] at hS2 hBle
          rw [hAeq] at hS2
          rw [hdec] at hphi
          simp only [sumMu] at hphi
          omega
        · exact hnone
      · split at hnone
        · exact Option.noConfusion hnone
        · -- plain probe: the candidate moves on.
          refine ih { t with totalweight := t.totalweight + 1 }
            { r with probepos := r.probepos + 1 }
            hlen hprime hsp0 hsp hdead halive ?_ hnone
          show muF t.slots t.size t.step_prime r.hash (r.probepos + 1) t.size +
            sumMu t.slots t.size t.step_prime ≤ n
          rw [hdec] at hphi
          omega

/-- If fewer slots are live than the capacity, some slot is not alive. -/
theorem exists_dead_of_count {l : List Entry} (h : countAlive l < l.length) :
    ∃ dd, dd < l.length ∧ (l.getD dd emptyEntry).alive = false := by
  by_contra hc
  push_neg at hc
  have hall : ∀ e ∈ l, e.alive = true := by
    intro e he
    obtain ⟨i, hi, hgi⟩ := List.mem_iff_getElem.mp he
    have hne := hc i (by omega)
    have hgd : l.getD i emptyEntry = e := by
      rw [List.getD_eq_getElem?_getD, List.getElem?_eq_getElem hi, Option.getD_some, hgi]
    rw [hgd] at hne
    revert hne
    cases e.alive
    · intro hne; exact absurd rfl hne
    · intro _; rfl
  have : countAlive l = l.length := by
    rw [countAlive]
    exact List.countP_eq_length.mpr (fun e he => by rw [hall e he])
  omega

/-- The fuel passed by `table_insert` dominates the termination potential:
hence the loop returns under the claim's hypotheses. -/
theorem insert_loop_terminates_wf (t : Table) (r : Entry) (fuel : Nat)
    (hlen : t.slots.length = t.size) (hprime : Nat.Prime t.size)
    (hsp0 : 0 < t.step_prime) (hsp : t.step_prime < t.size)
    (halive : r.alive = true) (hcount : countAlive t.slots < t.size)
    (hfuel : insertFuel t ≤ fuel) :
    insert_loop t r (t.step_prime - r.hash % t.step_prime) fuel ≠ none := by
  have hdead : ∃ dd, dd < t.size ∧ (t.slots.getD dd emptyEntry).alive = false := by
    obtain ⟨dd, hdd, hd2⟩ := exists_dead_of_count (l := t.slots) (by omega)
    exact ⟨dd, by omega, hd2⟩
  have hmu := (mu_bounds hprime hsp0 hsp hdead r.hash r.probepos).2
  have hsum : sumMu t.slots t.size t.step_prime ≤ t.slots.length * t.size := by
    apply sum_map_le
    intro e he
    rw [muEntry]
    split
    · exact (mu_bounds hprime hsp0 hsp hdead e.hash e.probepos).2
    · omega
  rw [hlen] at hsum
  simp only [insertFuel] at hfuel
  exact insert_loop_some fuel t r hlen hprime hsp0 hsp hdead halive (by
    simp only [sumMu] at hsum ⊢
    omega)

/-! ## Claim C10 -/

/-- Claim C10 (confirmed): termination of the probe/displacement loop.  For
every table state whose geometry is well formed — `size` prime, `step_prime`
a nonzero value below `size` (so every candidate's derived step
`step_prime - hash % step_prime` is a nonzero value below `size` and its
probe sequence visits all slots), and fewer live slots than capacity (the
meaning of `elements < size`) — the loop returns a result within the fuel
`table_insert` provides, Robin-Hood swaps included; consequently a
`table_insert` call on such a state that does not take the growth branch
never diverges. -/
theorem C10_probe_loop_terminates :
    (∀ (t : Table) (r : Entry) (fuel : Nat),
      t.slots.length = t.size → Nat.Prime t.size →
      0 < t.step_prime → t.step_prime < t.size →
      r.alive = true → countAlive t.slots < t.size →
      insertFuel t ≤ fuel →
      insert_loop t r (t.step_prime - r.hash % t.step_prime) fuel ≠ none) ∧
    (∀ (ok : Bool) (t : Table) (key : List Nat) (keylen data : Nat),
      t.slots.length = t.size → Nat.Prime t.size →
      0 < t.step_prime → t.step_prime < t.size →
      t.elements = countAlive t.slots → t.elements < t.size →
      ¬ 19 * t.size < 20 * t.elements →
      table_insert ok t key keylen data ≠ none) := by
  constructor
  · intro t r fuel hlen hprime hsp0 hsp halive hcount hfuel
    exact insert_loop_terminates_wf t r fuel hlen hprime hsp0 hsp halive hcount hfuel
  · intro ok t key keylen data hlen hprime hsp0 hsp hel hlt hload
    simp only [table_insert]
    split
    · exact Option.noConfusion
    · exact insert_loop_terminates_wf t _ (insertFuel t) hlen hprime hsp0 hsp rfl
        (by omega) (Nat.le_refl _)

/-- Witness for claim C10: inserting a fresh key into the size-5 table `tU`
(one live slot out of five, prime size, `step_prime = 3`) terminates. -/
theorem C10_probe_loop_terminates_witness :
    table_insert true tU [2] 1 55 ≠ none :=
  C10_probe_loop_terminates.2 true tU [2] 1 55 (by decide) (by decide) (by decide)
    (by decide) (by decide) (by decide) (by decide)
